import Mathlib

/-!
Verification development for the entity-publish extension
(`src/lib/extension/publish.js`): a shallow embedding of the topic parser,
payload decoder, attribute orderer, converter dispatch loop and optimistic
state aggregation, together with theorems about the claimed properties.

External collaborators (the settings provider, the entity resolver, the state
store, `JSON.parse`, and the converter write/read operations themselves) are
inputs of the model; the control flow, data transformations and bookkeeping
of `publish.js` are translated statement by statement.
-/

namespace Z2M

/-- JSON-like runtime values flowing through the dispatcher
(decoded payloads, converter results, cached states). -/
inductive JValue where
  | null
  | bool (b : Bool)
  | num (n : Int)
  | str (s : String)
  | arr (elems : List JValue)
  | obj (fields : List (String × JValue))

/-- A flat JS object, as an insertion-ordered association list. -/
abbrev JObj := List (String × JValue)

/-- JS truthiness test (`!json`) for the values `JSON.parse` can produce. -/
def jsFalsy : JValue → Bool
  | .null => true
  | .bool b => !b
  | .num n => n == 0
  | .str s => s == ""
  | _ => false

/-- `Object.entries(v)`: fields of an object, index/character pairs of an
array or string, nothing for primitives. -/
def jsEntries : JValue → JObj
  | .obj fs => fs
  | .arr xs => xs.enum.map (fun p => (toString p.1, p.2))
  | .str s => s.data.enum.map (fun p => (toString p.1, .str (String.mk [p.2])))
  | _ => []

/-- `o[k]` on an object: value of the first matching key. -/
def jsObjGet (o : JObj) (k : String) : Option JValue :=
  (o.find? (fun p => p.1 = k)).map Prod.snd

/-- `o.hasOwnProperty(k)` on an object. -/
def jsObjHas (o : JObj) (k : String) : Bool :=
  o.any (fun p => p.1 = k)

/-- `o[k] = v`: overwrite the existing key in place, else append it. -/
def jsObjSet : JObj → String → JValue → JObj
  | [], k, v => [(k, v)]
  | p :: ps, k, v => if p.1 = k then (k, v) :: ps else p :: jsObjSet ps k v

/-- `delete o[k]`: remove the key. -/
def jsObjDelete : JObj → String → JObj
  | [], _ => []
  | p :: ps, k => if p.1 = k then ps else p :: jsObjDelete ps k

/-- `{...a, ...b}`: keys of `a` in place (values possibly overwritten by `b`),
new keys of `b` appended in order. -/
def jsObjMerge (a b : JObj) : JObj :=
  b.foldl (fun m p => jsObjSet m p.1 p.2) a

/-- `{...v}` for an arbitrary value: its own enumerable entries, deduplicated
into a fresh object. -/
def jsSpreadObj (v : JValue) : JObj :=
  (jsEntries v).foldl (fun m p => jsObjSet m p.1 p.2) []

/-- `v.hasOwnProperty(k)` restricted to enumerable entries, which is all the
dispatcher ever queries (`color_temp`, `color`, `brightness`). -/
def jsHasOwn (v : JValue) (k : String) : Bool :=
  (jsEntries v).any (fun p => p.1 = k)

/-- `v[k]` for an arbitrary value, restricted to enumerable entries. -/
def jsGetField (v : JValue) (k : String) : Option JValue :=
  ((jsEntries v).find? (fun p => p.1 = k)).map Prod.snd

/-- `delete v[k]`: only object fields can be removed. -/
def jsDeleteField : JValue → String → JValue
  | .obj fs, k => .obj (jsObjDelete fs k)
  | v, _ => v

/-! ### String helpers (character-list based, so that everything reduces) -/

/-- `s.toLowerCase()` (character-wise). -/
def strToLower (s : String) : String := String.mk (s.data.map Char.toLower)

/-- `s.includes(c)` for a single character. -/
def strContainsChar (s : String) (c : Char) : Bool := s.data.contains c

/-- `s.endsWith(t)`. -/
def strEndsWith (s t : String) : Bool := t.data.isSuffixOf s.data

/-- `s.substring(0, n)` (clamping like JS). -/
def strTake (s : String) (n : Nat) : String := String.mk (s.data.take n)

/-- Split a character list at `'\n'` (for JS multiline `$` anchors). -/
def splitLines : List Char → List (List Char)
  | [] => [[]]
  | c :: cs =>
    if c = '\n' then [] :: splitLines cs
    else
      match splitLines cs with
      | [] => [[c]]
      | l :: ls => (c :: l) :: ls

/-- Remove the first occurrence of `pat` from a character list;
`none` when `pat` does not occur. -/
def removeFirst (pat : List Char) : List Char → Option (List Char)
  | [] => if pat.isPrefixOf ([] : List Char) then some [] else none
  | c :: cs =>
    if pat.isPrefixOf (c :: cs) then some ((c :: cs).drop pat.length)
    else (removeFirst pat cs).map (fun r => c :: r)

/-- `s.replace(pat, '')` for a plain-string pattern: JS replaces only the
first occurrence, leaving the string unchanged when the pattern is absent. -/
def jsReplaceFirst (s pat : String) : String :=
  match removeFirst pat.data s.data with
  | some r => String.mk r
  | none => s

/-- Numeric value of a digit string. -/
def digitsVal (l : List Char) : Nat :=
  l.foldl (fun n c => n * 10 + (c.toNat - 48)) 0

/-- Substring test (`/bridge/` style regex on a literal). -/
def hasSubstr (pat : List Char) : List Char → Bool
  | [] => pat.isPrefixOf ([] : List Char)
  | c :: cs => pat.isPrefixOf (c :: cs) || hasSubstr pat cs

/-! ### The in-place `Array.prototype.sort` of the host runtime

The source sorts the decoded attribute entries with a comparator that
inspects only its first operand (`publish.js` line 157).  Such a comparator
is not a consistent comparison function, so the result is fixed by the
runtime's algorithm, not by the ECMAScript specification.  The host runtime
(V8) uses TimSort; for arrays shorter than 64 elements the computed minimum
run length equals the array length, so the sort is exactly: detect the
initial ascending or strictly descending run (reversing a descending one),
then insert every remaining element by binary search.  `jsSort` is that
algorithm. -/

/-- The binary-search loop of V8's binary insertion sort:
narrow `[left, right)` around the insertion point of `pivot`. -/
def binSearchAux (c : α → α → Int) (arr : List α) (pivot : α) :
    Nat → Nat → Nat → Nat
  | 0, left, _ => left
  | fuel + 1, left, right =>
    if left < right then
      let mid := left + (right - left) / 2
      match arr.get? mid with
      | some x =>
        if c pivot x < 0 then binSearchAux c arr pivot fuel left mid
        else binSearchAux c arr pivot fuel (mid + 1) right
      | none => left
    else left

/-- Insertion position of `pivot` in `arr` per V8's binary search. -/
def binSearch (c : α → α → Int) (arr : List α) (pivot : α) : Nat :=
  binSearchAux c arr pivot (arr.length + 1) 0 arr.length

/-- Insert `x` at position `n`. -/
def insertAt (n : Nat) (x : α) (l : List α) : List α :=
  l.take n ++ x :: l.drop n

/-- One binary-insertion step. -/
def binaryInsert (c : α → α → Int) (sorted : List α) (pivot : α) : List α :=
  insertAt (binSearch c sorted pivot) pivot sorted

/-- Extend the initial run: while the comparison of each element against its
predecessor keeps the run's direction, keep consuming. -/
def takeRun (c : α → α → Int) (desc : Bool) : α → List α → List α × List α
  | _, [] => ([], [])
  | prev, x :: xs =>
    if (if desc then c x prev < 0 else 0 ≤ c x prev) then
      let r := takeRun c desc x xs
      (x :: r.1, r.2)
    else ([], x :: xs)

/-- V8's array sort for arrays below the merge threshold:
initial-run detection (reversing a descending run) followed by binary
insertion of the remainder. -/
def jsSort (c : α → α → Int) : List α → List α
  | [] => []
  | [x] => [x]
  | x :: y :: rest =>
    let desc := c y x < 0
    let run := takeRun c desc y rest
    let initial := if desc then (x :: y :: run.1).reverse else x :: y :: run.1
    run.2.foldl (binaryInsert c) initial

/-! ### Topic parsing

The source matches topics against
`^(.+?)(?:/(<name1>|<name2>|…))?/(get|set)(?:/(.+))?` where the names are
`utils.endpointNames` (an external list of plain words).  The model is a
backtracking matcher specialised to this pattern: the lazy `(.+?)` tries the
shortest newline-free prefix first; the optional endpoint group is tried
before its absence, names in list order; the trailing `(?:/(.+))?` is
optional and its `(.+)` stops at a newline; nothing anchors the end, so any
remainder is ignored. -/

/-- Result of matching the topic regex: the four capture groups. -/
structure RegexMatch where
  g1 : String
  endpointName : Option String
  ty : String
  attr : Option String

/-- Match the optional trailing `(?:/(.+))?` group. -/
def matchAttr (rem : List Char) : Option String :=
  match rem with
  | '/' :: rest =>
    let a := rest.takeWhile (fun c => c ≠ '\n')
    if a.isEmpty then none else some (String.mk a)
  | _ => none

/-- Match `/(get|set)(?:/(.+))?`. -/
def matchAction (rem : List Char) : Option (String × Option String) :=
  if ['/', 'g', 'e', 't'].isPrefixOf rem then some ("get", matchAttr (rem.drop 4))
  else if ['/', 's', 'e', 't'].isPrefixOf rem then some ("set", matchAttr (rem.drop 4))
  else none

/-- Match `(?:/(name))?/(get|set)(?:/(.+))?`: try each endpoint name in
order (backtracking into the action on failure), then the no-endpoint
alternative. -/
def matchTail (names : List String) (rem : List Char) :
    Option (Option String × String × Option String) :=
  (names.findSome? (fun n =>
    if ('/' :: n.data).isPrefixOf rem then
      (matchAction (rem.drop (n.data.length + 1))).map
        (fun p => (some n, p.1, p.2))
    else none))
  <|> (matchAction rem).map (fun p => (none, p.1, p.2))

/-- Scan for the shortest nonempty newline-free prefix (`(.+?)`) whose
remainder matches the rest of the pattern. -/
def scanTopic (names : List String) : List Char → List Char → Option RegexMatch
  | accRev, rem =>
    match matchTail names rem with
    | some (ep, ty, attr) => some ⟨String.mk accRev.reverse, ep, ty, attr⟩
    | none =>
      match rem with
      | [] => none
      | c :: rest =>
        if c = '\n' then none else scanTopic names (c :: accRev) rest

/-- `topic.match(topicRegex)` (anchored at the string start). -/
def regexMatchTopic (names : List String) (topic : String) : Option RegexMatch :=
  match topic.data with
  | [] => none
  | c :: rest => if c = '\n' then none else scanTopic names [c] rest

/-- Global configuration (the slice of the settings provider the extension
reads). -/
structure GlobalSettings where
  base_topic : String
  legacy_api : Bool
  homeassistant : Bool

/-- The descriptor `parseTopic` returns. -/
structure TopicDesc where
  ID : String
  endpointName : String
  ty : String
  attr : Option String

/-- `EntityPublish.parseTopic`: match the regex, strip the first occurrence
of `<base_topic>/` from the first group, ignore the message when nothing was
stripped or the identifier matches `/bridge/`. -/
def parseTopic (S : GlobalSettings) (names : List String) (topic : String) :
    Option TopicDesc :=
  match regexMatchTopic names topic with
  | none => none
  | some m =>
    let ID := jsReplaceFirst m.g1 (S.base_topic ++ "/")
    if ID = m.g1 ∨ hasSubstr "bridge".data ID.data then none
    else some ⟨ID, m.endpointName.getD "", m.ty, m.attr⟩

/-! ### Entities, converters and the dispatch state -/

/-- A write/read target: a device endpoint or a group
(`actualTarget.constructor.name == 'Group'`). -/
inductive Target where
  | endpoint (id : Nat)
  | group (groupID : Nat)

/-- `target.constructor.name == 'Group' ? target.groupID : target.ID`,
as the string the JS object key coerces to. -/
def epgIDOf : Target → String
  | .endpoint i => toString i
  | .group g => toString g

/-- Per-entity options (`resolvedEntity.settings`). -/
structure EntitySettings where
  ID : String
  friendlyName : String
  optimistic : Option Bool
  filtered_optimistic : Option (List String)
  retrieve_state : Bool

/-- The per-attribute `meta` bundle handed to converters. -/
structure Meta where
  endpoint_name : String
  message : JObj
  state : JObj
  membersState : Option (List (String × Option JObj))

/-- A converter's optional write result. -/
structure ConvResult where
  state : Option JObj
  membersState : Option (List (String × JObj))
  readAfterWriteTime : Option Nat

/-- A `toZigbee` converter.  `cid` stands for the JS object identity used by
`usedConverters[...].includes(converter)` (distinct objects have distinct
`cid`s); the write and read operations are external collaborators, with
`Except.error` modelling a thrown exception and `Option` absence modelling a
missing `convertSet`/`convertGet` field or an `undefined` result. -/
structure Converter where
  cid : Nat
  key : List String
  convertSet : Option (Target → String → JValue → Meta → Except String (Option ConvResult))
  convertGet : Option (Target → String → Meta → Except String Unit)

/-- A device's capability definition
(`toZigbee` plus `device.getEndpoint(definition.endpoint(device)[name])`). -/
structure DeviceDef where
  toZigbee : List Converter
  endpointByName : String → Option Target

/-- A resolved device. -/
structure ResolvedDevice where
  modelID : String
  definition : Option DeviceDef
  endpoint : Target
  settings : EntitySettings

/-- A group member: its address and, when the external registry finds a
definition for its device, that definition's converter list. -/
structure GroupMember where
  ieeeAddr : String
  memberConverters : Option (List Converter)

/-- A resolved group. -/
structure ResolvedGroup where
  groupID : Nat
  members : List GroupMember
  settings : EntitySettings

/-- `this.zigbee.resolveEntity` result: exactly one of the two variants. -/
inductive ResolvedEntity where
  | device (d : ResolvedDevice)
  | group (g : ResolvedGroup)

/-- The whole environment of one `onMQTTMessage` call. -/
structure World where
  settings : GlobalSettings
  endpointNames : List String
  resolveEntity : String → Option ResolvedEntity
  stateGet : String → Option JObj
  parseJson : String → Option JValue

/-! ### Observable events -/

/-- Chronological observable events: converter invocations (annotated with
the endpoint-or-group identifier the loop computed) and state publishes. -/
inductive Ev where
  | setCall (cid : Nat) (target : Target) (epOrGrpID : String)
      (key : String) (value : JValue) (meta : Meta)
  | getCall (cid : Nat) (target : Target) (epOrGrpID : String)
      (key : String) (meta : Meta)
  | publishState (ID : String) (payload : JObj)

/-- Log lines the extension emits. -/
inductive LogEv where
  | errorEntityUnknown (entityKey : String)
  | warnUnsupported (modelID : String)
  | errorInvalidJson (raw : String)
  | debugSkipStateHA
  | errorNoEndpoint (name endpointName : String)
  | errorNoConverter (key : String)
  | debugPublishing (ty key name : String)
  | errorNoConverterForType (ty key : String)
  | errorPublishFailed (ty key name err : String)

/-- Structured records mirrored to the `bridge/log` diagnostic topic when
the legacy API mode is enabled. -/
inductive DiagEv where
  | entityNotFound (friendlyName : String)
  | zigbeePublishError (ty key name : String)

/-- Which of the two `addToToPublish` call sites accumulated a delta
(the entity's own state delta, or a group-member delta). -/
inductive AddSrc where
  | entity
  | member

/-- State threaded through the dispatch loop. -/
structure LoopState where
  usedConverters : List (String × List Nat)
  toPublish : List (String × JObj)
  adds : List (AddSrc × String × JObj)
  trace : List Ev
  logs : List LogEv
  diags : List DiagEv
  scheduled : List (Nat × Nat × String)

/-- The loop state before the first attribute. -/
def emptyLoopState : LoopState :=
  { usedConverters := [], toPublish := [], adds := [], trace := [],
    logs := [], diags := [], scheduled := [] }

/-- The converters already used for this endpoint-or-group identifier
(`usedConverters[id]`, `[]` when absent). -/
def usedFor (st : LoopState) (id : String) : List Nat :=
  ((st.usedConverters.find? (fun p => p.1 = id)).map Prod.snd).getD []

/-- `if (!usedConverters.hasOwnProperty(id)) usedConverters[id] = []`. -/
def ensureUsed (st : LoopState) (id : String) : LoopState :=
  if st.usedConverters.any (fun p => p.1 = id) then st
  else { st with usedConverters := st.usedConverters ++ [(id, [])] }

/-- `usedConverters[id].push(cid)`. -/
def pushUsedAux : List (String × List Nat) → String → Nat → List (String × List Nat)
  | [], id, cid => [(id, [cid])]
  | p :: ps, id, cid =>
    if p.1 = id then (id, p.2 ++ [cid]) :: ps else p :: pushUsedAux ps id cid

/-- Record a converter as used for an identifier. -/
def pushUsed (st : LoopState) (id : String) (cid : Nat) : LoopState :=
  { st with usedConverters := pushUsedAux st.usedConverters id cid }

/-- `addToToPublish` on the raw buffer: create-from-empty or spread-merge. -/
def addToToPublishAux : List (String × JObj) → String → JObj → List (String × JObj)
  | [], id, payload => [(id, jsObjMerge [] payload)]
  | p :: ps, id, payload =>
    if p.1 = id then (id, jsObjMerge p.2 payload) :: ps
    else p :: addToToPublishAux ps id payload

/-- `addToToPublish(ID, payload)`, with a ghost record of the call. -/
def addToToPublish (st : LoopState) (src : AddSrc) (id : String) (payload : JObj) :
    LoopState :=
  { st with toPublish := addToToPublishAux st.toPublish id payload,
            adds := st.adds ++ [(src, id, payload)] }

/-! ### The per-attribute dispatch step (`publish.js` lines 167–295) -/

/-- Everything the loop body reads but never writes. -/
structure DispatchCtx where
  ty : String
  topicEndpointName : String
  isDevice : Bool
  deviceDef : Option DeviceDef
  target : Target
  converters : List Converter
  options : EntitySettings
  entityState : JObj
  membersState : Option (List (String × Option JObj))
  json : JValue
  endpointNames : List String
  legacy : Bool
  name : String

/-- `key.replace(new RegExp(`(_${n})$`, 'gm'), '')`: with the multiline flag
the anchor also matches before every newline, so the suffix is removed at
the end of each line. -/
def stripSuffixGM (key n : String) : String :=
  String.mk (List.intercalate ['\n']
    ((splitLines key.data).map (fun l =>
      if ('_' :: n.data).isSuffixOf l then l.take (l.length - (n.data.length + 1))
      else l)))

/-- Lines 168–188: the effective key, endpoint name, target and
endpoint-or-group identifier for one attribute.  A `none` target means the
named endpoint does not exist on the device (logged, attribute skipped). -/
def resolveKeyTarget (C : DispatchCtx) (key : String) :
    String × String × Option Target × String :=
  if C.isDevice ∧ strContainsChar key '_' then
    match C.endpointNames.find? (fun n => strEndsWith key ("_" ++ n)) with
    | some n =>
      let key' := stripSuffixGM key n
      let tgt := match C.deviceDef with
        | some dd => dd.endpointByName n
        | none => none
      (key', n, tgt, n)
    | none => (key, C.topicEndpointName, some C.target, epgIDOf C.target)
  else (key, C.topicEndpointName, some C.target, epgIDOf C.target)

/-- Lines 216–224: strip the endpoint name from the keys of the message
copy (iterating over a snapshot of the entries; `substring` drops the
suffix plus one separator character). -/
def rewriteMsgKeys (msg0 : JObj) (ep : String) : JObj :=
  msg0.foldl (fun m p =>
    if strEndsWith p.1 ep then
      jsObjSet (jsObjDelete m p.1) (strTake p.1 (p.1.length - (ep.length + 1))) p.2
    else m) msg0

/-- Lines 205–225: the fresh `meta` bundle for one attribute. -/
def mkMeta (C : DispatchCtx) (epName : String) : Meta :=
  let base := jsSpreadObj C.json
  { endpoint_name := epName,
    message := if epName ≠ "" then rewriteMsgKeys base epName else base,
    state := C.entityState,
    membersState := C.membersState }

/-- Lines 235–240: re-attach the endpoint suffix to every key of the
optimistic state delta (iterating over a snapshot of the keys, reading the
current value, setting the suffixed key, deleting the bare one). -/
def convResuffix (msg : JObj) (ep : String) : JObj :=
  (msg.map Prod.fst).foldl (fun m k =>
    match jsObjGet m k with
    | some v => jsObjDelete (jsObjSet m (k ++ "_" ++ ep) v) k
    | none => m) msg

/-- Lines 242–245: drop the keys listed in `filtered_optimistic`. -/
def applyFiltered (opts : EntitySettings) (msg : JObj) : JObj :=
  match opts.filtered_optimistic with
  | some fo => fo.foldl (fun m a => jsObjDelete m a) msg
  | none => msg

/-- Lines 228–270: the `set` branch inside the `try` block. -/
def runSet (C : DispatchCtx) (st : LoopState) (conv : Converter)
    (f : Target → String → JValue → Meta → Except String (Option ConvResult))
    (tgt : Target) (egID key : String) (value : JValue) (epName : String) :
    LoopState :=
  let meta := mkMeta C epName
  let st := { st with
    logs := st.logs ++ [.debugPublishing C.ty key C.name],
    trace := st.trace ++ [.setCall conv.cid tgt egID key value meta] }
  match f tgt key value meta with
  | .error e =>
    { st with
      logs := st.logs ++ [.errorPublishFailed C.ty key C.name e],
      diags := st.diags ++
        (if C.legacy then [.zigbeePublishError C.ty key C.name] else []) }
  | .ok none => st
  | .ok (some r) =>
    let optimistic := C.options.optimistic.getD true
    let st :=
      match r.state with
      | some msg0 =>
        if optimistic then
          let msg1 := if epName ≠ "" then convResuffix msg0 epName else msg0
          let msg2 := applyFiltered C.options msg1
          if msg2.isEmpty then st
          else addToToPublish st .entity C.options.ID msg2
        else st
      | none => st
    let st :=
      match r.membersState with
      | some ms =>
        if optimistic then
          ms.foldl (fun s p => addToToPublish s .member p.1 p.2) st
        else st
      | none => st
    match r.readAfterWriteTime with
    | some d =>
      if C.isDevice ∧ C.options.retrieve_state then
        { st with scheduled := st.scheduled ++ [(d, conv.cid, key)] }
      else st
    | none => st

/-- Lines 271–273: the `get` branch inside the `try` block. -/
def runGet (C : DispatchCtx) (st : LoopState) (conv : Converter)
    (g : Target → String → Meta → Except String Unit)
    (tgt : Target) (egID key : String) (epName : String) : LoopState :=
  let meta := mkMeta C epName
  let st := { st with
    logs := st.logs ++ [.debugPublishing C.ty key C.name],
    trace := st.trace ++ [.getCall conv.cid tgt egID key meta] }
  match g tgt key meta with
  | .error e =>
    { st with
      logs := st.logs ++ [.errorPublishFailed C.ty key C.name e],
      diags := st.diags ++
        (if C.legacy then [.zigbeePublishError C.ty key C.name] else []) }
  | .ok _ => st

/-- Lines 227–295: operation selection.  Returns the updated state and
whether line 294's `usedConverters.push` is reached (the
"no converter available for this type" branch `continue`s before it). -/
def dispatchOp (C : DispatchCtx) (st : LoopState) (conv : Converter)
    (tgt : Target) (egID key : String) (value : JValue) (epName : String) :
    LoopState × Bool :=
  match C.ty == "set", conv.convertSet with
  | true, some f => (runSet C st conv f tgt egID key value epName, true)
  | _, _ =>
    match C.ty == "get", conv.convertGet with
    | true, some g => (runGet C st conv g tgt egID key epName, true)
    | _, _ => ({ st with logs := st.logs ++ [.errorNoConverterForType C.ty key] }, false)

/-- Lines 190–295 for one attribute once key/target are resolved. -/
def dispatchCore (C : DispatchCtx) (st : LoopState) (key : String)
    (value : JValue) (epName : String) (tgt : Target) (egID : String) :
    LoopState :=
  let st := ensureUsed st egID
  match C.converters.find? (fun c => c.key.contains key) with
  | none => { st with logs := st.logs ++ [.errorNoConverter key] }
  | some conv =>
    if C.ty = "set" ∧ (usedFor st egID).contains conv.cid then st
    else
      let r := dispatchOp C st conv tgt egID key value epName
      if r.2 then pushUsed r.1 egID conv.cid else r.1

/-- The whole loop body for one `[key, value]` entry. -/
def dispatchStep (C : DispatchCtx) (st : LoopState) (kv : String × JValue) :
    LoopState :=
  match resolveKeyTarget C kv.1 with
  | (key, epName, some tgt, egID) => dispatchCore C st key kv.2 epName tgt egID
  | (_, epName, none, _) =>
    { st with logs := st.logs ++ [.errorNoEndpoint C.name epName] }

/-- The dispatch loop (`for (let [key, value] of entries)`). -/
def dispatchLoop (C : DispatchCtx) (st : LoopState)
    (entries : List (String × JValue)) : LoopState :=
  entries.foldl (dispatchStep C) st

/-! ### Group capability sets -/

/-- A converter write operation that issues the command and reports no
optimistic result (`undefined`). -/
def noResultSet : Target → String → JValue → Meta → Except String (Option ConvResult) :=
  fun _ _ _ _ => .ok none

/-- Modelled from the spec: `light_onoff_brightness` of the external
`zigbee-herdsman-converters` library, the combined power/brightness
converter of the fixed default group capability set (its key set covers the
`state`/`toggle` and brightness attributes per the spec's group-toggle
scenario). -/
def light_onoff_brightness : Converter :=
  { cid := 1000, key := ["state", "brightness", "brightness_percent"],
    convertSet := some noResultSet, convertGet := some (fun _ _ _ => .ok ()) }

/-- Modelled from the spec: the remaining members of the fixed default group
capability set (colour, effect, transition, cover, thermostat, scene and
move/step operations of `zigbee-herdsman-converters`); only their identities
and key coverage matter to the dispatcher. -/
def otherDefaultGroupConverters : List Converter :=
  [ { cid := 1001, key := ["color", "color_temp", "color_temp_percent"],
      convertSet := some noResultSet, convertGet := some (fun _ _ _ => .ok ()) },
    { cid := 1002, key := ["effect", "alert", "flash"],
      convertSet := some noResultSet, convertGet := none },
    { cid := 1003, key := ["transition"],
      convertSet := some noResultSet, convertGet := none },
    { cid := 1004, key := ["position", "tilt"],
      convertSet := some noResultSet, convertGet := some (fun _ _ _ => .ok ()) },
    { cid := 1005, key := ["occupied_heating_setpoint"],
      convertSet := some noResultSet, convertGet := some (fun _ _ _ => .ok ()) },
    { cid := 1006, key := ["tint_scene"],
      convertSet := some noResultSet, convertGet := none },
    { cid := 1007, key := ["brightness_move", "brightness_move_onoff"],
      convertSet := some noResultSet, convertGet := none },
    { cid := 1008, key := ["brightness_step", "brightness_step_onoff"],
      convertSet := some noResultSet, convertGet := none },
    { cid := 1009, key := ["color_temp_step"],
      convertSet := some noResultSet, convertGet := none },
    { cid := 1010, key := ["color_temp_move", "colortemp_move"],
      convertSet := some noResultSet, convertGet := none },
    { cid := 1011, key := ["hue_move", "saturation_move"],
      convertSet := some noResultSet, convertGet := none },
    { cid := 1012, key := ["hue_step", "saturation_step"],
      convertSet := some noResultSet, convertGet := none } ]

/-- Modelled from the spec: the fixed default capability set used when a
group's member capability union is empty (`defaultGroupConverters`,
`publish.js` lines 13–27). -/
def defaultGroupConverters : List Converter :=
  light_onoff_brightness :: otherDefaultGroupConverters

/-- `Set.prototype.add` over object identities: keep the first occurrence of
every converter identity. -/
def dedupByCid (seen : List Nat) : List Converter → List Converter
  | [] => []
  | c :: cs =>
    if c.cid ∈ seen then dedupByCid seen cs
    else c :: dedupByCid (c.cid :: seen) cs

/-- Lines 92–95: the deduplicated union of the members' converter lists
(members whose device has no registry definition are filtered out). -/
def groupConverterUnion (members : List GroupMember) : List Converter :=
  dedupByCid [] (members.filterMap (fun m => m.memberConverters)).flatten

/-- Line 96: the union, or the fixed default set when it is empty. -/
def groupConverters (members : List GroupMember) : List Converter :=
  let u := groupConverterUnion members
  if u.isEmpty then defaultGroupConverters else u

/-! ### Payload decoding, the Home-Assistant adjustment and the orderer -/

/-- Line 11: the bare state words. -/
def stateValues : List String :=
  ["on", "off", "toggle", "open", "close", "stop", "lock", "unlock"]

/-- Lines 112–123: structured-parse the whole payload, falling back to
`{state: <word>}` for a bare state word; `none` is the InvalidPayload
abort. -/
def decodeWhole (W : World) (m : String) : Option JValue :=
  match W.parseJson m with
  | some v => some v
  | none =>
    if stateValues.contains (strToLower m) then some (.obj [("state", .str m)])
    else none

/-- Lines 105–123: the decoded attribute map (`none` = InvalidPayload). -/
def decodePayload (W : World) (topic : TopicDesc) (m : String) : Option JValue :=
  match topic.attr with
  | some a =>
    if a = "" then decodeWhole W m
    else some (.obj [(a, (W.parseJson m).getD (.str m))])
  | none => decodeWhole W m

/-- Lines 135–144: drop a redundant `state` key when the Home-Assistant
integration mode is enabled, the entity is on, and only colour is set. -/
def haAdjust (ha : Bool) (json : JValue) (entityState : JObj) :
    JValue × List LogEv :=
  if ha then
    let isOn := match jsObjGet entityState "state" with
      | some (.str s) => s = "ON"
      | _ => false
    if isOn && (jsHasOwn json "color_temp" || jsHasOwn json "color")
        && !jsHasOwn json "brightness" then
      (jsDeleteField json "state", [.debugSkipStateHA])
    else (json, [])
  else (json, [])

/-- The keys the orderer moves together with `state` (line 157). -/
def sortFirstKeys : List String := ["state", "brightness", "brightness_percent"]

/-- Line 156: `+1` when the decoded map's `state` is the string `"off"`
case-insensitively, else `-1`. -/
def sorterOf (json : JValue) : Int :=
  match jsGetField json "state" with
  | some (.str s) => if strToLower s = "off" then 1 else -1
  | _ => -1

/-- Line 157's comparator: it inspects only its first operand. -/
def entryCmp (sorter : Int) (a _b : String × JValue) : Int :=
  if sortFirstKeys.contains a.1 then sorter else sorter * -1

/-- The rank the comparator assigns to an entry. -/
def entryRank (sorter : Int) (a : String × JValue) : Int :=
  if sortFirstKeys.contains a.1 then sorter else sorter * -1

/-! ### Flushing and the whole handler -/

/-- A canonical array-index key (JS objects enumerate these first,
in ascending numeric order). -/
def isArrayIndexKey (s : String) : Bool :=
  !s.data.isEmpty ∧ s.data.all Char.isDigit
    ∧ (s = "0" ∨ s.data.head? ≠ some '0')
    ∧ digitsVal s.data < 4294967295

/-- `Object.entries` enumeration order: array-index keys ascending first,
then the remaining keys in insertion order. -/
def jsKeyOrder (l : List (String × α)) : List (String × α) :=
  List.insertionSort (fun a b => digitsVal a.1.data ≤ digitsVal b.1.data)
    (l.filter (fun p => isArrayIndexKey p.1))
  ++ l.filter (fun p => !isArrayIndexKey p.1)

/-- Everything one `onMQTTMessage` call observably does. -/
structure Output where
  ret : Option Bool
  trace : List Ev
  logs : List LogEv
  diags : List DiagEv
  scheduled : List (Nat × Nat × String)
  adds : List (AddSrc × String × JObj)
  toPublish : List (String × JObj)

/-- An output with no observable effects. -/
def emptyOutput (r : Option Bool) : Output :=
  { ret := r, trace := [], logs := [], diags := [], scheduled := [],
    adds := [], toPublish := [] }

/-- Lines 104–301 once the entity is resolved: decode, adjust, order,
dispatch, flush. -/
def runPipeline (W : World) (topic : TopicDesc) (rawMessage : String)
    (isDevice : Bool) (deviceDef : Option DeviceDef) (target : Target)
    (converters : List Converter) (options : EntitySettings)
    (membersState : Option (List (String × Option JObj))) : Output :=
  match decodePayload W topic rawMessage with
  | none => { emptyOutput (some false) with logs := [.errorInvalidJson rawMessage] }
  | some json0 =>
    if jsFalsy json0 then
      { emptyOutput none with logs := [.errorInvalidJson rawMessage] }
    else
      let entityState := (W.stateGet options.ID).getD []
      let adj := haAdjust W.settings.homeassistant json0 entityState
      let json := adj.1
      let sorter := sorterOf json
      let entries := jsSort (entryCmp sorter) (jsEntries json)
      let C : DispatchCtx :=
        { ty := topic.ty, topicEndpointName := topic.endpointName,
          isDevice := isDevice, deviceDef := deviceDef, target := target,
          converters := converters, options := options,
          entityState := entityState, membersState := membersState,
          json := json, endpointNames := W.endpointNames,
          legacy := W.settings.legacy_api, name := options.friendlyName }
      let st := dispatchLoop C emptyLoopState entries
      let pubs := jsKeyOrder st.toPublish
      { ret := some true,
        trace := st.trace ++ pubs.map (fun p => .publishState p.1 p.2),
        logs := adj.2 ++ st.logs,
        diags := st.diags,
        scheduled := st.scheduled,
        adds := st.adds,
        toPublish := st.toPublish }

/-- Line 51: the key handed to the entity resolver. -/
def entityKeyOf (topic : TopicDesc) : String :=
  topic.ID ++ (if topic.endpointName ≠ "" then "/" ++ topic.endpointName else "")

/-- `EntityPublish.onMQTTMessage`. -/
def onMQTTMessage (W : World) (rawTopic rawMessage : String) : Output :=
  match parseTopic W.settings W.endpointNames rawTopic with
  | none => emptyOutput (some false)
  | some topic =>
    let entityKey := entityKeyOf topic
    match W.resolveEntity entityKey with
    | none =>
      { emptyOutput none with
        logs := [.errorEntityUnknown entityKey],
        diags := if W.settings.legacy_api then [.entityNotFound entityKey] else [] }
    | some (.device d) =>
      match d.definition with
      | none => { emptyOutput none with logs := [.warnUnsupported d.modelID] }
      | some dd =>
        runPipeline W topic rawMessage true (some dd) d.endpoint dd.toZigbee
          d.settings none
    | some (.group g) =>
      runPipeline W topic rawMessage false none (.group g.groupID)
        (groupConverters g.members) g.settings
        (some (g.members.map (fun mem => (mem.ieeeAddr, W.stateGet mem.ieeeAddr))))

/-- The state publishes of an output, in order. -/
def statePublishes (out : Output) : List (String × JObj) :=
  out.trace.filterMap (fun e =>
    match e with
    | .publishState id p => some (id, p)
    | _ => none)

/-- The `(endpoint-or-group identifier, converter identity)` pairs of the
`set` invocations in a trace. -/
def setCallKeys (tr : List Ev) : List (String × Nat) :=
  tr.filterMap (fun e =>
    match e with
    | .setCall cid _ egID _ _ _ => some (egID, cid)
    | _ => none)

/-- An entity on which the dispatch phase is actually reached
(devices must have a capability definition). -/
def entityUsable : ResolvedEntity → Prop
  | .device d => d.definition ≠ none
  | .group _ => True

/-! ### Invariant definitions and concrete instances used by the analyses -/

/-- Concrete instance of C8: unknown entity, legacy mode on. -/
def c8World : World :=
  { settings := { base_topic := "base", legacy_api := true, homeassistant := false },
    endpointNames := [],
    resolveEntity := fun _ => none,
    stateGet := fun _ => none,
    parseJson := fun _ => none }

/-- A device world used by several witnesses: `lamp1` resolves, the payload
parser accepts nothing, the state store is empty. -/
def c5World : World :=
  { settings := { base_topic := "base", legacy_api := false, homeassistant := false },
    endpointNames := ["left"],
    resolveEntity := fun k =>
      if k = "lamp1" then
        some (.device
          { modelID := "M1",
            definition := some
              { toZigbee := [], endpointByName := fun _ => none },
            endpoint := .endpoint 1,
            settings := { ID := "0x1", friendlyName := "lamp1",
                          optimistic := none, filtered_optimistic := none,
                          retrieve_state := false } })
      else none,
    stateGet := fun _ => none,
    parseJson := fun _ => none }

/-- The ordering the claim describes, following the spec's words: a stable
reordering by ascending rank, i.e. all negative-rank entries first and all
positive-rank entries second, each class in its original relative order. -/
def specStableRankOrder (sorter : Int) (l : List (String × JValue)) :
    List (String × JValue) :=
  l.filter (fun a => decide (entryRank sorter a < 0))
    ++ l.filter (fun a => decide (0 ≤ entryRank sorter a))

/-- The decoded map of the counterexample to C4's stability:
`{"state":"ON","brightness":200}`. -/
def c4json : JValue := .obj [("state", .str "ON"), ("brightness", .num 200)]

/-- Loop invariant for C1: the set invocations so far carry pairwise
distinct (identifier, converter) pairs, and each one is recorded in the
used-converter bookkeeping. -/
def C1Inv (st : LoopState) : Prop :=
  (setCallKeys st.trace).Nodup
  ∧ ∀ p ∈ setCallKeys st.trace, p.2 ∈ usedFor st p.1

/-- A converter whose operations always throw, for the C2/C10 witnesses. -/
def throwingConverter : Converter :=
  { cid := 7, key := ["state"],
    convertSet := some (fun _ _ _ _ => .error "boom"),
    convertGet := some (fun _ _ _ => .error "boom") }

/-- A concrete SET dispatch context whose only converter throws. -/
def cW : DispatchCtx :=
  { ty := "set", topicEndpointName := "", isDevice := true,
    deviceDef := some { toZigbee := [throwingConverter],
                        endpointByName := fun _ => none },
    target := .endpoint 1, converters := [throwingConverter],
    options := { ID := "0x9", friendlyName := "lampX", optimistic := none,
                 filtered_optimistic := none, retrieve_state := false },
    entityState := [], membersState := none,
    json := .obj [("state", .str "ON")],
    endpointNames := [], legacy := true, name := "lampX" }

/-- The payloads accumulated for one identifier, in order. -/
def addsFor (adds : List (AddSrc × String × JObj)) (id : String) : List JObj :=
  (adds.filter (fun a => a.2.1 = id)).map (fun a => a.2.2)

/-- Lookup in the publish buffer. -/
def lookupPub (l : List (String × JObj)) (id : String) : Option JObj :=
  (l.find? (fun p => p.1 = id)).map Prod.snd

/-- The buffer content produced by a sequence of `addToToPublish` calls:
absent for no calls, else the left fold of the spread-merge. -/
def mergedAdds (ps : List JObj) : Option JObj :=
  ps.foldl (fun acc p => some (jsObjMerge (acc.getD []) p)) none

/-- An observable state-publish event. -/
def isPubEv : Ev → Prop
  | .publishState _ _ => True
  | _ => False

/-- Loop invariant for C3: buffer keys are distinct, each buffer entry is
exactly the fold of the deltas accumulated for its identifier, and every
entity-path delta is nonempty. -/
def C3Inv (st : LoopState) : Prop :=
  (st.toPublish.map Prod.fst).Nodup
  ∧ (∀ id : String, lookupPub st.toPublish id = mergedAdds (addsFor st.adds id))
  ∧ (∀ a ∈ st.adds, a.1 = AddSrc.entity → a.2.2 ≠ ([] : JObj))

/-- The aggregation contract of one message's output (the amended C3):
state publishes happen only after every converter call, they are exactly the
enumeration of the buffer, buffer keys are pairwise distinct, every entry is
the fold of the deltas accumulated for its identifier, and every entity-path
delta (though not necessarily every member-path delta) is nonempty. -/
def C3Out (out : Output) : Prop :=
  (∃ calls, out.trace = calls
      ++ (jsKeyOrder out.toPublish).map (fun p => Ev.publishState p.1 p.2)
    ∧ ∀ e ∈ calls, ¬isPubEv e)
  ∧ statePublishes out = jsKeyOrder out.toPublish
  ∧ (out.toPublish.map Prod.fst).Nodup
  ∧ ((statePublishes out).map Prod.fst).Nodup
  ∧ (∀ id, lookupPub out.toPublish id = mergedAdds (addsFor out.adds id))
  ∧ (∀ a ∈ out.adds, a.1 = AddSrc.entity → a.2.2 ≠ ([] : JObj))

/-- A converter returning an empty member-state delta, for the C3
counterexample. -/
def memberEmptyConverter : Converter :=
  { cid := 3, key := ["state"],
    convertSet := some (fun _ _ _ _ => .ok (some
      { state := none, membersState := some [("0xdead", [])],
        readAfterWriteTime := none })),
    convertGet := none }

/-- World for the C3 counterexample. -/
def c3World : World :=
  { settings := { base_topic := "base", legacy_api := false, homeassistant := false },
    endpointNames := [],
    resolveEntity := fun k =>
      if k = "lamp1" then
        some (.device
          { modelID := "M1",
            definition := some
              { toZigbee := [memberEmptyConverter], endpointByName := fun _ => none },
            endpoint := .endpoint 1,
            settings := { ID := "0x1", friendlyName := "lamp1", optimistic := none,
                          filtered_optimistic := none, retrieve_state := false } })
      else none,
    stateGet := fun _ => none,
    parseJson := fun _ => none }

/-- Converter for the C6 witness. -/
def c6conv : Converter :=
  { cid := 2, key := ["state"],
    convertSet := some (fun _ _ _ _ => .ok (some
      { state := some [("state", JValue.str "ON")], membersState := none,
        readAfterWriteTime := none })),
    convertGet := none }

/-- Device definition with a `left` endpoint for the C6 witness. -/
def c6dd : DeviceDef :=
  { toZigbee := [c6conv],
    endpointByName := fun n => if n = "left" then some (.endpoint 2) else none }

/-- Dispatch context for the C6 witness. -/
def c6ctx : DispatchCtx :=
  { ty := "set", topicEndpointName := "", isDevice := true,
    deviceDef := some c6dd, target := .endpoint 1, converters := [c6conv],
    options := { ID := "0x1", friendlyName := "lamp1", optimistic := none,
                 filtered_optimistic := none, retrieve_state := false },
    entityState := [], membersState := none,
    json := .obj [("state_left", JValue.str "ON")],
    endpointNames := ["left"], legacy := false, name := "lamp1" }

/-- The characters the optional endpoint group contributes to a match. -/
def epPartOf (ep : Option String) : List Char :=
  match ep with
  | some n => '/' :: n.data
  | none => []

/-- The characters the optional attribute group contributes to a match. -/
def attrPartOf (attr : Option String) : List Char :=
  match attr with
  | some a => '/' :: a.data
  | none => []

/-- What it means for a `RegexMatch` to decompose a topic along the
addressing grammar `<id>[/<endpointName>]/(get|set)[/<attribute>]…`: the
extracted pieces really are consecutive segments of the topic (anything may
follow, as the pattern has no end anchor), the identifier part is a
nonempty newline-free prefix, the endpoint name is declared, the action is
`get` or `set`, and the attribute is nonempty and newline-free. -/
def IsGrammarMatch (names : List String) (t : String) (m : RegexMatch) : Prop :=
  (m.ty = "get" ∨ m.ty = "set")
  ∧ m.g1 ≠ ""
  ∧ '\n' ∉ m.g1.data
  ∧ (∀ n, m.endpointName = some n → n ∈ names)
  ∧ (∀ a, m.attr = some a → a ≠ "" ∧ '\n' ∉ a.data)
  ∧ ∃ rest : List Char,
      t.data = m.g1.data ++ epPartOf m.endpointName
        ++ ('/' :: m.ty.data) ++ attrPartOf m.attr ++ rest

/-! ### C8: resolution failures stop the whole message -/

/-- C8: when the entity identifier does not resolve, or resolves to a device
with an unknown capability definition, the message stops before the dispatch
loop: the output carries no converter invocation and no state publish, and
the entity-not-found diagnostic record is emitted exactly when the legacy
API mode is enabled (never for the unsupported-device case). -/
theorem c8_resolution_failure_stops_message (W : World) (t m : String)
    (topic : TopicDesc)
    (hp : parseTopic W.settings W.endpointNames t = some topic) :
    (W.resolveEntity (entityKeyOf topic) = none →
      onMQTTMessage W t m =
        { emptyOutput none with
            logs := [.errorEntityUnknown (entityKeyOf topic)],
            diags := if W.settings.legacy_api then
              [.entityNotFound (entityKeyOf topic)] else [] })
    ∧ (∀ d, W.resolveEntity (entityKeyOf topic) = some (.device d) →
        d.definition = none →
        onMQTTMessage W t m =
          { emptyOutput none with logs := [.warnUnsupported d.modelID] }) := by
  constructor
  · intro h
    simp only [onMQTTMessage, hp, h]
  · intro d h hd
    simp only [onMQTTMessage, hp, h, hd]

/-- Witness for C8 at a concrete unknown entity. -/
theorem c8_resolution_failure_stops_message_witness :
    onMQTTMessage c8World "base/unknown/set" "ON" =
      { emptyOutput none with
          logs := [.errorEntityUnknown "unknown"],
          diags := [.entityNotFound "unknown"] } :=
  (c8_resolution_failure_stops_message c8World "base/unknown/set" "ON"
    ⟨"unknown", "", "set", none⟩ rfl).1 rfl

/-! ### C5: unparseable whole payloads -/

/-- C5: for a message without a trailing attribute segment whose payload the
structured parser rejects, a bare state word decodes to `{state: <payload>}`;
any other payload aborts the message as InvalidPayload with no converter
invocation and no state publish. -/
theorem c5_invalid_payload_aborts (W : World) (t m : String)
    (topic : TopicDesc)
    (hp : parseTopic W.settings W.endpointNames t = some topic)
    (hattr : topic.attr = none)
    (hjson : W.parseJson m = none) :
    (stateValues.contains (strToLower m) = true →
      decodePayload W topic m = some (.obj [("state", .str m)]))
    ∧ (stateValues.contains (strToLower m) = false →
      ∀ re, W.resolveEntity (entityKeyOf topic) = some re → entityUsable re →
        onMQTTMessage W t m =
          { emptyOutput (some false) with logs := [.errorInvalidJson m] }) := by
  constructor
  · intro h
    simp only [decodePayload, hattr, decodeWhole, hjson, h, if_true]
  · intro h re hre hu
    have hdec : decodePayload W topic m = none := by
      simp only [decodePayload, hattr, decodeWhole, hjson, h]
      simp
    cases re with
    | device d =>
      cases hd : d.definition with
      | none => exact absurd hd hu
      | some dd =>
        simp only [onMQTTMessage, hp, hre, hd, runPipeline, hdec]
    | group g =>
      simp only [onMQTTMessage, hp, hre, runPipeline, hdec]

/-- Witness for C5 at a concrete unparseable payload. -/
theorem c5_invalid_payload_aborts_witness :
    onMQTTMessage c5World "base/lamp1/set" "not json and not a state word" =
      { emptyOutput (some false) with
          logs := [.errorInvalidJson "not json and not a state word"] } :=
  (c5_invalid_payload_aborts c5World "base/lamp1/set"
      "not json and not a state word" ⟨"lamp1", "", "set", none⟩ rfl rfl rfl).2
    (by decide)
    (ResolvedEntity.device
      { modelID := "M1",
        definition := some { toZigbee := [], endpointByName := fun _ => none },
        endpoint := .endpoint 1,
        settings := { ID := "0x1", friendlyName := "lamp1", optimistic := none,
                      filtered_optimistic := none, retrieve_state := false } })
    rfl (by simp [entityUsable])

/-! ### C7: group capability sets -/

/-- Structure of `dedupByCid`: identities are duplicate-free and avoid
`seen`, every kept converter comes from the input, and every input converter
whose identity is not in `seen` is represented. -/
theorem dedupByCid_spec (seen : List Nat) (l : List Converter) :
    ((dedupByCid seen l).map (fun c => c.cid)).Nodup
    ∧ (∀ c ∈ dedupByCid seen l, c ∈ l ∧ c.cid ∉ seen)
    ∧ (∀ c ∈ l, c.cid ∉ seen → ∃ c' ∈ dedupByCid seen l, c'.cid = c.cid) := by
  induction l generalizing seen with
  | nil => simp [dedupByCid]
  | cons c cs ih =>
    by_cases h : c.cid ∈ seen
    · obtain ⟨ih1, ih2, ih3⟩ := ih seen
      refine ⟨?_, ?_, ?_⟩
      · rw [dedupByCid, if_pos h]
        exact ih1
      · intro x hx
        rw [dedupByCid, if_pos h] at hx
        exact ⟨List.mem_cons_of_mem _ (ih2 x hx).1, (ih2 x hx).2⟩
      · intro x hx hxs
        rcases List.mem_cons.1 hx with rfl | hx'
        · exact absurd h hxs
        · obtain ⟨c', hc', hcc⟩ := ih3 x hx' hxs
          exact ⟨c', by rw [dedupByCid, if_pos h]; exact hc', hcc⟩
    · obtain ⟨ih1, ih2, ih3⟩ := ih (c.cid :: seen)
      refine ⟨?_, ?_, ?_⟩
      · rw [dedupByCid, if_neg h]
        simp only [List.map_cons, List.nodup_cons]
        refine ⟨?_, ih1⟩
        intro hmem
        obtain ⟨c', hc', hcc⟩ := List.mem_map.1 hmem
        exact (ih2 c' hc').2 (hcc ▸ List.mem_cons_self _ _)
      · intro x hx
        rw [dedupByCid, if_neg h] at hx
        rcases List.mem_cons.1 hx with rfl | hx'
        · exact ⟨List.mem_cons_self _ _, h⟩
        · refine ⟨List.mem_cons_of_mem _ (ih2 x hx').1, ?_⟩
          intro hs
          exact (ih2 x hx').2 (List.mem_cons_of_mem _ hs)
      · intro x hx hxs
        rcases List.mem_cons.1 hx with rfl | hx'
        · exact ⟨x, by rw [dedupByCid, if_neg h]; exact List.mem_cons_self _ _, rfl⟩
        · by_cases hcx : x.cid = c.cid
          · exact ⟨c, by rw [dedupByCid, if_neg h]; exact List.mem_cons_self _ _, hcx.symm⟩
          · obtain ⟨c', hc', hcc⟩ := ih3 x hx' (by
              intro hmem
              rcases List.mem_cons.1 hmem with hh | hh
              · exact hcx hh
              · exact hxs hh)
            exact ⟨c', by rw [dedupByCid, if_neg h]; exact List.mem_cons_of_mem _ hc', hcc⟩

/-- C7: a resolved group's capability set is the deduplicated union of its
members' capability sets (duplicate-free identities, drawn from and covering
the members' converters), equal to the fixed default capability set exactly
when that union is empty; in that case a `state` attribute still selects the
combined power/brightness converter of the default set. -/
theorem c7_group_capability_set (members : List GroupMember) :
    ((groupConverterUnion members).map (fun c => c.cid)).Nodup
    ∧ (∀ c ∈ groupConverterUnion members,
        c ∈ (members.filterMap (fun mb => mb.memberConverters)).flatten)
    ∧ (∀ c ∈ (members.filterMap (fun mb => mb.memberConverters)).flatten,
        ∃ c' ∈ groupConverterUnion members, c'.cid = c.cid)
    ∧ (groupConverterUnion members = [] →
        groupConverters members = defaultGroupConverters)
    ∧ (groupConverterUnion members ≠ [] →
        groupConverters members = groupConverterUnion members)
    ∧ (groupConverterUnion members = [] →
        (groupConverters members).find? (fun c => c.key.contains "state")
          = some light_onoff_brightness) := by
  obtain ⟨h1, h2, h3⟩ :=
    dedupByCid_spec [] (members.filterMap (fun mb => mb.memberConverters)).flatten
  refine ⟨h1, fun c hc => (h2 c hc).1, fun c hc => h3 c hc (by simp), ?_, ?_, ?_⟩
  · intro h
    simp [groupConverters, h]
  · intro h
    simp [groupConverters, List.isEmpty_iff, h]
  · intro h
    simp only [groupConverters, h, List.isEmpty_nil, if_true]
    rfl

/-- Witness for C7: a one-member group whose device has no registry
definition falls back to the default set and still finds the `state`
converter. -/
theorem c7_group_capability_set_witness :
    groupConverters [⟨"0x2", none⟩] = defaultGroupConverters
    ∧ (groupConverters [⟨"0x2", none⟩]).find?
        (fun c => c.key.contains "state") = some light_onoff_brightness := by
  exact ⟨(c7_group_capability_set [⟨"0x2", none⟩]).2.2.2.1 rfl,
    (c7_group_capability_set [⟨"0x2", none⟩]).2.2.2.2.2 rfl⟩

/-! ### C4: the attribute orderer

Line 157's comparator ignores its second operand, so it is not a consistent
comparison function; the lemmas below evaluate the runtime's algorithm under
such a comparator: every element compares the same way against everything,
hence binary search inserts it either at the very front or at the very end,
and a detected descending run is reversed wholesale. -/

theorem binSearchAux_neg {α : Type} (c : α → α → Int) (r : α → Int)
    (hc : ∀ a b, c a b = r a) (arr : List α) (pivot : α) (hneg : r pivot < 0)
    (fuel left right : Nat) :
    binSearchAux c arr pivot fuel left right = left := by
  induction fuel generalizing left right with
  | zero => rfl
  | succ n ih =>
    simp only [binSearchAux]
    split
    · cases hget : arr.get? (left + (right - left) / 2) with
      | none => simp [hget]
      | some x => simp [hget, hc, hneg, ih]
    · rfl

theorem binSearchAux_nonneg {α : Type} (c : α → α → Int) (r : α → Int)
    (hc : ∀ a b, c a b = r a) (arr : List α) (pivot : α) (hpos : 0 ≤ r pivot)
    (fuel left right : Nat) (hlr : left ≤ right) (hra : right ≤ arr.length)
    (hfuel : right - left < fuel) :
    binSearchAux c arr pivot fuel left right = right := by
  induction fuel generalizing left right with
  | zero => omega
  | succ n ih =>
    simp only [binSearchAux]
    split
    · rename_i hlt
      have hmid : left + (right - left) / 2 < arr.length := by omega
      cases hget : arr.get? (left + (right - left) / 2) with
      | none => rw [List.get?_eq_get hmid] at hget; cases hget
      | some x =>
        have hnlt : ¬ c pivot x < 0 := by rw [hc]; omega
        simp only [hget, hnlt, if_neg]
        exact ih (left + (right - left) / 2 + 1) right (by omega) hra (by omega)
    · rename_i hnlt
      omega

theorem binSearch_eval {α : Type} (c : α → α → Int) (r : α → Int)
    (hc : ∀ a b, c a b = r a) (arr : List α) (pivot : α) :
    binSearch c arr pivot = if r pivot < 0 then 0 else arr.length := by
  unfold binSearch
  split
  · exact binSearchAux_neg c r hc arr pivot (by assumption) _ _ _
  · exact binSearchAux_nonneg c r hc arr pivot (by omega) _ _ _
      (Nat.zero_le _) le_rfl (by omega)

theorem binaryInsert_eval {α : Type} (c : α → α → Int) (r : α → Int)
    (hc : ∀ a b, c a b = r a) (sorted : List α) (pivot : α) :
    binaryInsert c sorted pivot =
      if r pivot < 0 then pivot :: sorted else sorted ++ [pivot] := by
  unfold binaryInsert
  rw [binSearch_eval c r hc]
  split
  · simp [insertAt]
  · simp [insertAt, List.take_length, List.drop_length]

theorem takeRun_desc_eval {α : Type} (c : α → α → Int) (r : α → Int)
    (hc : ∀ a b, c a b = r a) (rest : List α) :
    ∀ prev, takeRun c true prev rest =
      (rest.takeWhile (fun a => decide (r a < 0)),
       rest.dropWhile (fun a => decide (r a < 0))) := by
  induction rest with
  | nil => intro prev; rfl
  | cons x xs ih =>
    intro prev
    simp only [takeRun, if_true, hc, List.takeWhile_cons, List.dropWhile_cons]
    by_cases hx : r x < 0
    · simp [hx, ih x]
    · simp [hx]

theorem takeRun_asc_eval {α : Type} (c : α → α → Int) (r : α → Int)
    (hc : ∀ a b, c a b = r a) (rest : List α) :
    ∀ prev, takeRun c false prev rest =
      (rest.takeWhile (fun a => decide (0 ≤ r a)),
       rest.dropWhile (fun a => decide (0 ≤ r a))) := by
  induction rest with
  | nil => intro prev; rfl
  | cons x xs ih =>
    intro prev
    simp only [takeRun, if_false, hc, List.takeWhile_cons, List.dropWhile_cons]
    by_cases hx : 0 ≤ r x
    · simp [hx, ih x]
    · simp [hx]

theorem foldl_binaryInsert_eval {α : Type} (c : α → α → Int) (r : α → Int)
    (hc : ∀ a b, c a b = r a) (rem : List α) :
    ∀ neg pos : List α,
      rem.foldl (binaryInsert c) (neg.reverse ++ pos) =
        (neg ++ rem.filter (fun a => decide (r a < 0))).reverse
          ++ (pos ++ rem.filter (fun a => decide (0 ≤ r a))) := by
  induction rem with
  | nil => simp
  | cons p ps ih =>
    intro neg pos
    by_cases hp : r p < 0
    · have hins : binaryInsert c (neg.reverse ++ pos) p = (neg ++ [p]).reverse ++ pos := by
        rw [binaryInsert_eval c r hc, if_pos hp]
        simp
      have hnp : ¬ 0 ≤ r p := by omega
      rw [List.foldl_cons, hins, ih (neg ++ [p]) pos]
      simp [List.filter_cons, hp, hnp, List.append_assoc]
    · have hins : binaryInsert c (neg.reverse ++ pos) p
          = neg.reverse ++ (pos ++ [p]) := by
        rw [binaryInsert_eval c r hc, if_neg hp]
        simp
      have hpp : 0 ≤ r p := by omega
      rw [List.foldl_cons, hins, ih neg (pos ++ [p])]
      simp [List.filter_cons, hp, hpp, List.append_assoc]

/-- The runtime sort under a comparator that depends only on its first
operand and never returns zero-rank ties it cannot: the negatively-ranked
elements come out first in reversed relative order, followed by the
nonnegatively-ranked elements in preserved relative order. -/
theorem jsSort_rank_eval {α : Type} (c : α → α → Int) (r : α → Int)
    (hc : ∀ a b, c a b = r a) (l : List α) :
    jsSort c l =
      (l.filter (fun a => decide (r a < 0))).reverse
        ++ l.filter (fun a => decide (0 ≤ r a)) := by
  match l with
  | [] => rfl
  | [x] =>
    by_cases hx : r x < 0
    · have hnx : ¬ 0 ≤ r x := by omega
      simp [jsSort, List.filter_cons, hx, hnx]
    · have hpx : 0 ≤ r x := by omega
      simp [jsSort, List.filter_cons, hx, hpx]
  | x :: y :: rest =>
    simp only [jsSort]
    by_cases hy : r y < 0
    · have hcyx : c y x < 0 := by rw [hc]; exact hy
      have hdesc : decide (c y x < 0) = true := by simp [hcyx]
      rw [hdesc, if_pos hcyx]
      simp only [takeRun_desc_eval c r hc]
      have hsplit := List.takeWhile_append_dropWhile
        (p := fun a => decide (r a < 0)) (l := rest)
      set ext := rest.takeWhile (fun a => decide (r a < 0)) with hext
      set rem := rest.dropWhile (fun a => decide (r a < 0)) with hrem
      have hextneg : ∀ a ∈ ext, r a < 0 := by
        intro a ha
        have := List.mem_takeWhile_imp ha
        simpa using this
      have hextfilterneg : ext.filter (fun a => decide (r a < 0)) = ext :=
        List.filter_eq_self.2 (fun a ha => by simpa using hextneg a ha)
      have hextfilterpos : ext.filter (fun a => decide (0 ≤ r a)) = [] :=
        List.filter_eq_nil_iff.2 (fun a ha => by
          have := hextneg a ha
          simp only [decide_eq_true_eq]
          omega)
      by_cases hx : r x < 0
      · have hform : (x :: y :: ext).reverse
            = ((x :: y :: ext).filter (fun a => decide (r a < 0))).reverse
              ++ ([] : List α) := by
          have hnx : ¬ 0 ≤ r x := by omega
          simp [List.filter_cons, hx, hy, hextfilterneg]
        rw [hform, foldl_binaryInsert_eval c r hc rem _ _, ← hsplit]
        have hnx : ¬ 0 ≤ r x := by omega
        have hny : ¬ 0 ≤ r y := by omega
        simp [List.filter_cons, List.filter_append, hx, hy, hnx, hny,
          hextfilterneg, hextfilterpos, List.append_assoc]
      · have hpx : 0 ≤ r x := by omega
        have hform : (x :: y :: ext).reverse
            = ((y :: ext).filter (fun a => decide (r a < 0))).reverse
              ++ [x] := by
          simp [List.filter_cons, hy, hextfilterneg]
        rw [hform, foldl_binaryInsert_eval c r hc rem _ _, ← hsplit]
        have hny : ¬ 0 ≤ r y := by omega
        simp [List.filter_cons, List.filter_append, hx, hy, hpx, hny,
          hextfilterneg, hextfilterpos, List.append_assoc]
    · have hcyx : ¬ c y x < 0 := by rw [hc]; exact hy
      have hdesc : decide (c y x < 0) = false := by simp [hcyx]
      rw [hdesc, if_neg hcyx]
      simp only [takeRun_asc_eval c r hc]
      have hsplit := List.takeWhile_append_dropWhile
        (p := fun a => decide (0 ≤ r a)) (l := rest)
      set ext := rest.takeWhile (fun a => decide (0 ≤ r a)) with hext
      set rem := rest.dropWhile (fun a => decide (0 ≤ r a)) with hrem
      have hextpos : ∀ a ∈ ext, 0 ≤ r a := by
        intro a ha
        have := List.mem_takeWhile_imp ha
        simpa using this
      have hextfilterpos : ext.filter (fun a => decide (0 ≤ r a)) = ext :=
        List.filter_eq_self.2 (fun a ha => by simpa using hextpos a ha)
      have hextfilterneg : ext.filter (fun a => decide (r a < 0)) = [] :=
        List.filter_eq_nil_iff.2 (fun a ha => by
          have := hextpos a ha
          simp only [decide_eq_true_eq]
          omega)
      have hpy : 0 ≤ r y := by omega
      by_cases hx : r x < 0
      · have hform : x :: y :: ext
            = [x].reverse ++ (y :: ext).filter (fun a => decide (0 ≤ r a)) := by
          simp [List.filter_cons, hpy, hextfilterpos]
        rw [hform, foldl_binaryInsert_eval c r hc rem _ _, ← hsplit]
        have hny : ¬ r y < 0 := by omega
        simp [List.filter_cons, List.filter_append, hx, hny, hpy,
          hextfilterneg, hextfilterpos, List.append_assoc]
      · have hpx : 0 ≤ r x := by omega
        have hform : x :: y :: ext
            = ([] : List α).reverse
              ++ (x :: y :: ext).filter (fun a => decide (0 ≤ r a)) := by
          simp [List.filter_cons, hpx, hpy, hextfilterpos]
        rw [hform, foldl_binaryInsert_eval c r hc rem _ _, ← hsplit]
        have hny : ¬ r y < 0 := by omega
        simp [List.filter_cons, List.filter_append, hx, hpx, hpy, hny,
          hextfilterneg, hextfilterpos, List.append_assoc]

/-- C4 (amended): the orderer is deterministic in the decoded map and yields
the ascending-rank two-class partition — but relative order is preserved
only within the rank equal to `-sorter`; within the rank equal to `sorter`
(the class holding `state`/`brightness`/`brightness_percent` when they rank
together) the relative order is reversed.  Equivalently: negative-rank
entries come first in reversed relative order, then nonnegative-rank entries
in original relative order. -/
theorem c4_orderer_partition (json : JValue) :
    jsSort (entryCmp (sorterOf json)) (jsEntries json) =
      ((jsEntries json).filter
          (fun a => decide (entryRank (sorterOf json) a < 0))).reverse
        ++ (jsEntries json).filter
            (fun a => decide (0 ≤ entryRank (sorterOf json) a)) :=
  jsSort_rank_eval (entryCmp (sorterOf json)) (entryRank (sorterOf json))
    (fun _ _ => rfl) (jsEntries json)

/-- Counterexample to C4 as stated: on `{"state":"ON","brightness":200}`
both entries share the same rank, yet the orderer emits them in reversed
order (`brightness` before `state`), so it is not the stable ascending-rank
reordering the claim describes. -/
theorem c4_counterexample :
    jsSort (entryCmp (sorterOf c4json)) (jsEntries c4json)
      ≠ specStableRankOrder (sorterOf c4json) (jsEntries c4json) := by
  intro h
  have h1 : (jsSort (entryCmp (sorterOf c4json)) (jsEntries c4json)).map Prod.fst
      = ["brightness", "state"] := by decide
  have h2 : (specStableRankOrder (sorterOf c4json) (jsEntries c4json)).map Prod.fst
      = ["state", "brightness"] := by decide
  rw [h, h2] at h1
  exact absurd h1 (by decide)

/-! ### Bookkeeping lemmas for the dispatch loop -/

theorem lookup_append_nil (l : List (String × List Nat)) (id id' : String) :
    (((l ++ [(id, [])]).find? (fun p : String × List Nat => p.1 = id')).map
        Prod.snd).getD []
      = ((l.find? (fun p : String × List Nat => p.1 = id')).map Prod.snd).getD [] := by
  induction l with
  | nil =>
    simp only [List.nil_append, List.find?_nil]
    by_cases h : (id, ([] : List Nat)).1 = id'
    · rw [List.find?_cons_of_pos _ (by simpa using h)]
      simp
    · rw [List.find?_cons_of_neg _ (by simpa using h)]
      simp
  | cons q qs ih =>
    by_cases h : q.1 = id'
    · rw [List.cons_append, List.find?_cons_of_pos _ (by simpa using h),
        List.find?_cons_of_pos _ (by simpa using h)]
    · rw [List.cons_append, List.find?_cons_of_neg _ (by simpa using h),
        List.find?_cons_of_neg _ (by simpa using h)]
      exact ih

theorem usedFor_ensureUsed (st : LoopState) (id id' : String) :
    usedFor (ensureUsed st id) id' = usedFor st id' := by
  unfold ensureUsed
  split
  · rfl
  · exact lookup_append_nil st.usedConverters id id'

theorem ensureUsed_fields (st : LoopState) (id : String) :
    (ensureUsed st id).toPublish = st.toPublish
    ∧ (ensureUsed st id).adds = st.adds
    ∧ (ensureUsed st id).trace = st.trace
    ∧ (ensureUsed st id).logs = st.logs
    ∧ (ensureUsed st id).diags = st.diags
    ∧ (ensureUsed st id).scheduled = st.scheduled := by
  unfold ensureUsed
  split <;> exact ⟨rfl, rfl, rfl, rfl, rfl, rfl⟩

theorem lookup_pushUsedAux (l : List (String × List Nat)) (id : String)
    (cid : Nat) (id' : String) :
    (((pushUsedAux l id cid).find? (fun p => p.1 = id')).map Prod.snd).getD []
      = if id' = id then
          (((l.find? (fun p => p.1 = id')).map Prod.snd).getD []) ++ [cid]
        else ((l.find? (fun p => p.1 = id')).map Prod.snd).getD [] := by
  induction l with
  | nil =>
    by_cases h : id' = id
    · subst h
      simp only [pushUsedAux, List.find?_nil]
      rw [List.find?_cons_of_pos _ (by simp)]
      simp
    · have h' : ¬ (id : String) = id' := fun hh => h hh.symm
      simp only [pushUsedAux, List.find?_nil]
      rw [List.find?_cons_of_neg _ (by simpa using h')]
      simp [h]
  | cons q qs ih =>
    by_cases hq : q.1 = id
    · simp only [pushUsedAux, hq, if_pos]
      by_cases h : id' = id
      · subst h
        rw [List.find?_cons_of_pos _ (by simp),
          List.find?_cons_of_pos _ (by simpa using hq)]
        simp
      · have h1 : ¬ (id : String) = id' := fun hh => h hh.symm
        have h2 : ¬ q.1 = id' := by rw [hq]; exact h1
        rw [List.find?_cons_of_neg _ (by simpa using h1),
          List.find?_cons_of_neg _ (by simpa using h2)]
        simp [h]
    · simp only [pushUsedAux, hq, if_neg, if_false]
      by_cases hqi : q.1 = id'
      · have h : ¬ id' = id := fun hh => hq (by rw [hqi, hh])
        rw [List.find?_cons_of_pos _ (by simpa using hqi),
          List.find?_cons_of_pos _ (by simpa using hqi)]
        simp [h]
      · rw [List.find?_cons_of_neg _ (by simpa using hqi),
          List.find?_cons_of_neg _ (by simpa using hqi)]
        exact ih

theorem usedFor_pushUsed (st : LoopState) (id : String) (cid : Nat) (id' : String) :
    usedFor (pushUsed st id cid) id' =
      if id' = id then usedFor st id ++ [cid] else usedFor st id' := by
  by_cases h : id' = id
  · simpa [usedFor, pushUsed, h] using lookup_pushUsedAux st.usedConverters id cid id
  · simpa [usedFor, pushUsed, h] using lookup_pushUsedAux st.usedConverters id cid id'

theorem pushUsedAux_any (l : List (String × List Nat)) (id : String) (cid : Nat) :
    (pushUsedAux l id cid).any (fun p => p.1 = id) = true := by
  induction l with
  | nil => simp [pushUsedAux]
  | cons q qs ih => by_cases h : q.1 = id <;> simp [pushUsedAux, h, ih]

theorem pushUsed_fields (st : LoopState) (id : String) (cid : Nat) :
    (pushUsed st id cid).toPublish = st.toPublish
    ∧ (pushUsed st id cid).adds = st.adds
    ∧ (pushUsed st id cid).trace = st.trace
    ∧ (pushUsed st id cid).logs = st.logs
    ∧ (pushUsed st id cid).diags = st.diags
    ∧ (pushUsed st id cid).scheduled = st.scheduled :=
  ⟨rfl, rfl, rfl, rfl, rfl, rfl⟩

theorem membersFold_usedConverters (ms : List (String × JObj)) (s : LoopState) :
    (ms.foldl (fun s p => addToToPublish s .member p.1 p.2) s).usedConverters
      = s.usedConverters := by
  induction ms generalizing s with
  | nil => rfl
  | cons p ps ih => exact ih (addToToPublish s .member p.1 p.2)

theorem membersFold_trace (ms : List (String × JObj)) (s : LoopState) :
    (ms.foldl (fun s p => addToToPublish s .member p.1 p.2) s).trace = s.trace := by
  induction ms generalizing s with
  | nil => rfl
  | cons p ps ih => exact ih (addToToPublish s .member p.1 p.2)

theorem membersFold_logs (ms : List (String × JObj)) (s : LoopState) :
    (ms.foldl (fun s p => addToToPublish s .member p.1 p.2) s).logs = s.logs := by
  induction ms generalizing s with
  | nil => rfl
  | cons p ps ih => exact ih (addToToPublish s .member p.1 p.2)

theorem membersFold_diags (ms : List (String × JObj)) (s : LoopState) :
    (ms.foldl (fun s p => addToToPublish s .member p.1 p.2) s).diags = s.diags := by
  induction ms generalizing s with
  | nil => rfl
  | cons p ps ih => exact ih (addToToPublish s .member p.1 p.2)

theorem membersFold_scheduled (ms : List (String × JObj)) (s : LoopState) :
    (ms.foldl (fun s p => addToToPublish s .member p.1 p.2) s).scheduled
      = s.scheduled := by
  induction ms generalizing s with
  | nil => rfl
  | cons p ps ih => exact ih (addToToPublish s .member p.1 p.2)

/-- `runSet` leaves `usedConverters` alone and appends exactly the one
`setCall` event, whatever the converter does. -/
theorem runSet_shape (C : DispatchCtx) (st : LoopState) (conv : Converter)
    (f : Target → String → JValue → Meta → Except String (Option ConvResult))
    (tgt : Target) (egID key : String) (v : JValue) (ep : String) :
    (runSet C st conv f tgt egID key v ep).usedConverters = st.usedConverters
    ∧ (runSet C st conv f tgt egID key v ep).trace
        = st.trace ++ [.setCall conv.cid tgt egID key v (mkMeta C ep)] := by
  dsimp only [runSet]
  cases hf : f tgt key v (mkMeta C ep) with
  | error e => exact ⟨rfl, rfl⟩
  | ok r =>
    cases r with
    | none => exact ⟨rfl, rfl⟩
    | some rr =>
      refine ⟨?_, ?_⟩ <;>
      · dsimp only
        repeat' split
        all_goals try simp only [membersFold_usedConverters, membersFold_trace]
        all_goals rfl

/-- `runGet` leaves `usedConverters` alone and appends exactly the one
`getCall` event. -/
theorem runGet_shape (C : DispatchCtx) (st : LoopState) (conv : Converter)
    (g : Target → String → Meta → Except String Unit)
    (tgt : Target) (egID key : String) (ep : String) :
    (runGet C st conv g tgt egID key ep).usedConverters = st.usedConverters
    ∧ (runGet C st conv g tgt egID key ep).trace
        = st.trace ++ [.getCall conv.cid tgt egID key (mkMeta C ep)] := by
  dsimp only [runGet]
  cases hg : g tgt key (mkMeta C ep) with
  | error e => exact ⟨rfl, rfl⟩
  | ok u => exact ⟨rfl, rfl⟩

/-! ### C1: a converter runs at most once per identifier per SET message -/

theorem setCallKeys_append (a b : List Ev) :
    setCallKeys (a ++ b) = setCallKeys a ++ setCallKeys b :=
  List.filterMap_append a b _

theorem setCallKeys_publishMap (ps : List (String × JObj)) :
    setCallKeys (ps.map (fun p => Ev.publishState p.1 p.2)) = [] := by
  induction ps with
  | nil => rfl
  | cons p qs ih => simp [setCallKeys, ih]

/-- `usedFor` only reads `usedConverters`. -/
theorem usedFor_congr {a b : LoopState} (h : a.usedConverters = b.usedConverters)
    (id : String) : usedFor a id = usedFor b id := by
  unfold usedFor
  rw [h]

/-- Case analysis of `dispatchOp`: `usedConverters` is never touched, and
the trace either stays (no matching operation, no push), gains one `setCall`
(SET path, push follows), or gains one `getCall` (GET path, push follows). -/
theorem dispatchOp_shape (C : DispatchCtx) (st : LoopState) (conv : Converter)
    (tgt : Target) (egID key : String) (v : JValue) (ep : String) :
    (dispatchOp C st conv tgt egID key v ep).1.usedConverters = st.usedConverters
    ∧ ((dispatchOp C st conv tgt egID key v ep).1.trace = st.trace
        ∧ (dispatchOp C st conv tgt egID key v ep).2 = false
      ∨ (C.ty = "set"
          ∧ (dispatchOp C st conv tgt egID key v ep).1.trace
            = st.trace ++ [.setCall conv.cid tgt egID key v (mkMeta C ep)]
          ∧ (dispatchOp C st conv tgt egID key v ep).2 = true)
      ∨ ((dispatchOp C st conv tgt egID key v ep).1.trace
            = st.trace ++ [.getCall conv.cid tgt egID key (mkMeta C ep)]
          ∧ (dispatchOp C st conv tgt egID key v ep).2 = true)) := by
  dsimp only [dispatchOp]
  cases hty : C.ty == "set" with
  | true =>
    cases hcs : conv.convertSet with
    | some f =>
      have hshape := runSet_shape C st conv f tgt egID key v ep
      exact ⟨hshape.1, Or.inr (Or.inl ⟨by simpa using hty, hshape.2, rfl⟩)⟩
    | none =>
      cases htyg : C.ty == "get" with
      | true =>
        cases hcg : conv.convertGet with
        | some g =>
          have hshape := runGet_shape C st conv g tgt egID key ep
          exact ⟨hshape.1, Or.inr (Or.inr ⟨hshape.2, rfl⟩)⟩
        | none => exact ⟨rfl, Or.inl ⟨rfl, rfl⟩⟩
      | false => exact ⟨rfl, Or.inl ⟨rfl, rfl⟩⟩
  | false =>
    cases htyg : C.ty == "get" with
    | true =>
      cases hcg : conv.convertGet with
      | some g =>
        have hshape := runGet_shape C st conv g tgt egID key ep
        exact ⟨hshape.1, Or.inr (Or.inr ⟨hshape.2, rfl⟩)⟩
      | none => exact ⟨rfl, Or.inl ⟨rfl, rfl⟩⟩
    | false => exact ⟨rfl, Or.inl ⟨rfl, rfl⟩⟩

theorem dispatchCore_C1Inv (C : DispatchCtx) (st : LoopState) (key : String)
    (v : JValue) (epName : String) (tgt : Target) (egID : String)
    (h : C1Inv st) : C1Inv (dispatchCore C st key v epName tgt egID) := by
  obtain ⟨hnd, hmem⟩ := h
  have htr := (ensureUsed_fields st egID).2.2.1
  have hnd1 : (setCallKeys (ensureUsed st egID).trace).Nodup := by
    rw [htr]; exact hnd
  have hmem1 : ∀ p ∈ setCallKeys (ensureUsed st egID).trace,
      p.2 ∈ usedFor (ensureUsed st egID) p.1 := by
    intro p hp
    rw [usedFor_ensureUsed]
    exact hmem p (by rwa [htr] at hp)
  dsimp only [dispatchCore]
  cases hfind : C.converters.find? (fun c => c.key.contains key) with
  | none => exact ⟨hnd1, hmem1⟩
  | some conv =>
    dsimp only
    split
    · exact ⟨hnd1, hmem1⟩
    · rename_i hskip
      obtain ⟨hused, hcases⟩ :=
        dispatchOp_shape C (ensureUsed st egID) conv tgt egID key v epName
      rcases hcases with ⟨htrace, hpush⟩ | ⟨htyp, htrace, hpush⟩ | ⟨htrace, hpush⟩
      · rw [hpush]
        simp only [Bool.false_eq_true, if_false]
        refine ⟨by rw [htrace]; exact hnd1, ?_⟩
        intro p hp
        rw [htrace] at hp
        rw [usedFor_congr hused]
        exact hmem1 p hp
      · rw [hpush]
        simp only [if_true]
        have hnc : conv.cid ∉ usedFor (ensureUsed st egID) egID := by
          intro hc
          exact hskip ⟨htyp, by simpa using hc⟩
        refine ⟨?_, ?_⟩
        · rw [(pushUsed_fields _ egID conv.cid).2.2.1, htrace, setCallKeys_append]
          have hnotin : (egID, conv.cid) ∉ setCallKeys (ensureUsed st egID).trace := by
            intro hin
            exact hnc (hmem1 _ hin)
          simp only [setCallKeys, List.filterMap_cons, List.filterMap_nil]
          rw [List.nodup_append]
          refine ⟨hnd1, List.nodup_singleton _, ?_⟩
          intro p hp hq
          simp only [List.mem_singleton] at hq
          subst hq
          exact hnotin hp
        · intro p hp
          rw [(pushUsed_fields _ egID conv.cid).2.2.1, htrace,
            setCallKeys_append] at hp
          have husedp : usedFor (pushUsed (dispatchOp C (ensureUsed st egID) conv
              tgt egID key v epName).1 egID conv.cid) p.1
              = if p.1 = egID then usedFor (ensureUsed st egID) egID ++ [conv.cid]
                else usedFor (ensureUsed st egID) p.1 := by
            rw [usedFor_pushUsed]
            by_cases hpe : p.1 = egID
            · rw [if_pos hpe, if_pos hpe, usedFor_congr hused]
            · rw [if_neg hpe, if_neg hpe, usedFor_congr hused]
          rcases List.mem_append.1 hp with hold | hnew
          · have := hmem1 p hold
            rw [husedp]
            by_cases hpe : p.1 = egID
            · rw [if_pos hpe]
              exact List.mem_append_left _ (hpe ▸ this)
            · rw [if_neg hpe]
              exact this
          · simp only [setCallKeys, List.filterMap_cons, List.filterMap_nil] at hnew
            simp only [List.mem_singleton] at hnew
            subst hnew
            rw [husedp, if_pos rfl]
            exact List.mem_append_right _ (List.mem_singleton_self _)
      · rw [hpush]
        simp only [if_true]
        refine ⟨?_, ?_⟩
        · rw [(pushUsed_fields _ egID conv.cid).2.2.1, htrace, setCallKeys_append]
          simpa [setCallKeys] using hnd1
        · intro p hp
          rw [(pushUsed_fields _ egID conv.cid).2.2.1, htrace,
            setCallKeys_append] at hp
          have hp' : p ∈ setCallKeys (ensureUsed st egID).trace := by
            simpa [setCallKeys] using hp
          have := hmem1 p hp'
          rw [usedFor_pushUsed]
          by_cases hpe : p.1 = egID
          · rw [if_pos hpe, usedFor_congr hused]
            exact List.mem_append_left _ (hpe ▸ this)
          · rw [if_neg hpe, usedFor_congr hused]
            exact this

theorem dispatchStep_C1Inv (C : DispatchCtx) (st : LoopState)
    (kv : String × JValue) (h : C1Inv st) : C1Inv (dispatchStep C st kv) := by
  dsimp only [dispatchStep]
  rcases hrt : resolveKeyTarget C kv.1 with ⟨key, epName, tgt?, egID⟩
  cases tgt? with
  | none => exact h
  | some tgt => exact dispatchCore_C1Inv C st key kv.2 epName tgt egID h

theorem dispatchLoop_C1Inv (C : DispatchCtx) (entries : List (String × JValue)) :
    ∀ st : LoopState, C1Inv st → C1Inv (dispatchLoop C st entries) := by
  induction entries with
  | nil => exact fun st h => h
  | cons e es ih =>
    intro st h
    exact ih (dispatchStep C st e) (dispatchStep_C1Inv C st e h)

theorem runPipeline_setCallKeys_nodup (W : World) (topic : TopicDesc)
    (m : String) (isDevice : Bool) (dd : Option DeviceDef) (target : Target)
    (converters : List Converter) (options : EntitySettings)
    (ms : Option (List (String × Option JObj))) :
    (setCallKeys (runPipeline W topic m isDevice dd target converters options
      ms).trace).Nodup := by
  dsimp only [runPipeline]
  cases hdec : decodePayload W topic m with
  | none => simp [emptyOutput, setCallKeys]
  | some json0 =>
    simp only [hdec]
    split
    · simp [emptyOutput, setCallKeys]
    · rw [setCallKeys_append, setCallKeys_publishMap, List.append_nil]
      refine (dispatchLoop_C1Inv _ _ emptyLoopState ⟨List.nodup_nil, ?_⟩).1
      intro p hp
      simp [emptyLoopState, setCallKeys] at hp

/-- C1: within one message, no converter is set-invoked twice for the same
endpoint-or-group identifier: the (identifier, converter) pairs of the set
invocations in the observable trace are pairwise distinct. -/
theorem c1_set_converter_at_most_once (W : World) (t m : String) :
    (setCallKeys (onMQTTMessage W t m).trace).Nodup := by
  dsimp only [onMQTTMessage]
  cases hp : parseTopic W.settings W.endpointNames t with
  | none => simp [emptyOutput, setCallKeys]
  | some topic =>
    try simp only [hp]
    cases hre : W.resolveEntity (entityKeyOf topic) with
    | none => simp [hre, emptyOutput, setCallKeys]
    | some re =>
      try simp only [hre]
      cases re with
      | device d =>
        cases hd : d.definition with
        | none => simp [hd, emptyOutput, setCallKeys]
        | some dd =>
          try simp only [hd]
          exact runPipeline_setCallKeys_nodup W topic m true (some dd)
            d.endpoint dd.toZigbee d.settings none
      | group g =>
        exact runPipeline_setCallKeys_nodup W topic m false none
          (.group g.groupID) (groupConverters g.members) g.settings _

/-! ### C2 and C10: converter exceptions -/

/-- A throwing write operation: the `catch` block logs the failure, mirrors
it to the diagnostic topic only in legacy mode, and nothing else happens. -/
theorem runSet_error (C : DispatchCtx) (st : LoopState) (conv : Converter)
    (f : Target → String → JValue → Meta → Except String (Option ConvResult))
    (tgt : Target) (egID key : String) (v : JValue) (ep : String) (e : String)
    (hf : f tgt key v (mkMeta C ep) = .error e) :
    runSet C st conv f tgt egID key v ep =
      { st with
        trace := st.trace ++ [.setCall conv.cid tgt egID key v (mkMeta C ep)],
        logs := st.logs ++ [.debugPublishing C.ty key C.name,
                            .errorPublishFailed C.ty key C.name e],
        diags := st.diags
          ++ (if C.legacy then [.zigbeePublishError C.ty key C.name] else []) } := by
  dsimp only [runSet]
  rw [hf]
  simp [List.append_assoc]

/-- A throwing read operation behaves the same way. -/
theorem runGet_error (C : DispatchCtx) (st : LoopState) (conv : Converter)
    (g : Target → String → Meta → Except String Unit)
    (tgt : Target) (egID key : String) (ep : String) (e : String)
    (hg : g tgt key (mkMeta C ep) = .error e) :
    runGet C st conv g tgt egID key ep =
      { st with
        trace := st.trace ++ [.getCall conv.cid tgt egID key (mkMeta C ep)],
        logs := st.logs ++ [.debugPublishing C.ty key C.name,
                            .errorPublishFailed C.ty key C.name e],
        diags := st.diags
          ++ (if C.legacy then [.zigbeePublishError C.ty key C.name] else []) } := by
  dsimp only [runGet]
  rw [hg]
  simp [List.append_assoc]

/-- The dispatch step on an attribute whose converter operation throws:
unfolds to the caught-error state followed by the used-converter push. -/
theorem dispatchStep_error (C : DispatchCtx) (st : LoopState)
    (kv : String × JValue) (key epName : String) (tgt : Target) (egID : String)
    (conv : Converter) (e : String)
    (hrt : resolveKeyTarget C kv.1 = (key, epName, some tgt, egID))
    (hfind : C.converters.find? (fun c => c.key.contains key) = some conv)
    (hns : ¬(C.ty = "set" ∧ (usedFor st egID).contains conv.cid = true))
    (herr : (C.ty = "set" ∧ ∃ f, conv.convertSet = some f
              ∧ f tgt key kv.2 (mkMeta C epName) = .error e)
          ∨ (C.ty = "get" ∧ ∃ g, conv.convertGet = some g
              ∧ g tgt key (mkMeta C epName) = .error e)) :
    ∃ ev, dispatchStep C st kv =
      pushUsed
        { ensureUsed st egID with
          trace := (ensureUsed st egID).trace ++ [ev],
          logs := (ensureUsed st egID).logs
            ++ [.debugPublishing C.ty key C.name,
                .errorPublishFailed C.ty key C.name e],
          diags := (ensureUsed st egID).diags
            ++ (if C.legacy then [.zigbeePublishError C.ty key C.name] else []) }
        egID conv.cid := by
  have hns' : ¬(C.ty = "set"
      ∧ (usedFor (ensureUsed st egID) egID).contains conv.cid = true) := by
    rw [usedFor_ensureUsed]
    exact hns
  dsimp only [dispatchStep]
  rw [hrt]
  dsimp only [dispatchCore]
  rw [hfind]
  dsimp only
  rw [if_neg hns']
  rcases herr with ⟨hty, f, hcs, hf⟩ | ⟨hty, g, hcg, hg⟩
  · refine ⟨.setCall conv.cid tgt egID key kv.2 (mkMeta C epName), ?_⟩
    have hop : dispatchOp C (ensureUsed st egID) conv tgt egID key kv.2 epName
        = (runSet C (ensureUsed st egID) conv f tgt egID key kv.2 epName, true) := by
      dsimp only [dispatchOp]
      rw [hcs, show (C.ty == "set") = true by simp [hty]]
    rw [hop]
    dsimp only
    rw [runSet_error C _ conv f tgt egID key kv.2 epName e hf]
    simp
  · refine ⟨.getCall conv.cid tgt egID key (mkMeta C epName), ?_⟩
    have htyns : (C.ty == "set") = false := by
      simp [hty]
    have hop : dispatchOp C (ensureUsed st egID) conv tgt egID key kv.2 epName
        = (runGet C (ensureUsed st egID) conv g tgt egID key epName, true) := by
      dsimp only [dispatchOp]
      rw [htyns, hcg, show (C.ty == "get") = true by simp [hty]]
    rw [hop]
    dsimp only
    rw [runGet_error C _ conv g tgt egID key epName e hg]
    simp

/-- C2: an exception thrown by the selected converter's write or read
operation is caught inside the loop body: the loop goes on to process every
remaining attribute from the caught state, which differs only by the failure
log (and the diagnostic mirror exactly when legacy mode is on), the
converter-usage bookkeeping and the one call event — no optimistic delta, no
scheduled read, no state publish comes out of the failing attribute. -/
theorem c2_converter_exception_contained (C : DispatchCtx) (st : LoopState)
    (kv : String × JValue) (rest : List (String × JValue))
    (key epName : String) (tgt : Target) (egID : String)
    (conv : Converter) (e : String)
    (hrt : resolveKeyTarget C kv.1 = (key, epName, some tgt, egID))
    (hfind : C.converters.find? (fun c => c.key.contains key) = some conv)
    (hns : ¬(C.ty = "set" ∧ (usedFor st egID).contains conv.cid = true))
    (herr : (C.ty = "set" ∧ ∃ f, conv.convertSet = some f
              ∧ f tgt key kv.2 (mkMeta C epName) = .error e)
          ∨ (C.ty = "get" ∧ ∃ g, conv.convertGet = some g
              ∧ g tgt key (mkMeta C epName) = .error e)) :
    dispatchLoop C st (kv :: rest) = dispatchLoop C (dispatchStep C st kv) rest
    ∧ (dispatchStep C st kv).toPublish = st.toPublish
    ∧ (dispatchStep C st kv).adds = st.adds
    ∧ (dispatchStep C st kv).scheduled = st.scheduled
    ∧ (dispatchStep C st kv).logs = st.logs
        ++ [.debugPublishing C.ty key C.name, .errorPublishFailed C.ty key C.name e]
    ∧ (dispatchStep C st kv).diags = st.diags
        ++ (if C.legacy then [.zigbeePublishError C.ty key C.name] else []) := by
  obtain ⟨ev, hstep⟩ :=
    dispatchStep_error C st kv key epName tgt egID conv e hrt hfind hns herr
  obtain ⟨htp, hadds, _, hlogs, hdiags, hsched⟩ := ensureUsed_fields st egID
  refine ⟨rfl, ?_, ?_, ?_, ?_, ?_⟩ <;> rw [hstep]
  · exact htp
  · exact hadds
  · exact hsched
  · simp only [pushUsed]
    exact congrArg (fun l => l ++ _) hlogs
  · simp only [pushUsed]
    exact congrArg (fun l => l ++ _) hdiags

/-- C10: a converter whose write operation threw is still pushed into the
used-converter set for its endpoint-or-group identifier, so any later
attribute of the same SET message that selects the same converter for the
same identifier leaves the loop state completely unchanged — it is skipped,
not retried. -/
theorem c10_thrown_converter_not_retried (C : DispatchCtx) (st : LoopState)
    (kv : String × JValue) (key epName : String) (tgt : Target) (egID : String)
    (conv : Converter) (e : String)
    (f : Target → String → JValue → Meta → Except String (Option ConvResult))
    (hty : C.ty = "set")
    (hrt : resolveKeyTarget C kv.1 = (key, epName, some tgt, egID))
    (hfind : C.converters.find? (fun c => c.key.contains key) = some conv)
    (hns : (usedFor st egID).contains conv.cid = false)
    (hcs : conv.convertSet = some f)
    (hf : f tgt key kv.2 (mkMeta C epName) = .error e) :
    conv.cid ∈ usedFor (dispatchStep C st kv) egID
    ∧ ∀ (kv2 : String × JValue) (key2 epName2 : String) (tgt2 : Target),
        resolveKeyTarget C kv2.1 = (key2, epName2, some tgt2, egID) →
        C.converters.find? (fun c => c.key.contains key2) = some conv →
        dispatchStep C (dispatchStep C st kv) kv2 = dispatchStep C st kv := by
  obtain ⟨ev, hstep⟩ := dispatchStep_error C st kv key epName tgt egID conv e hrt
    hfind (by rw [hns]; simp) (Or.inl ⟨hty, f, hcs, hf⟩)
  have hmem : conv.cid ∈ usedFor (dispatchStep C st kv) egID := by
    rw [hstep, usedFor_pushUsed, if_pos rfl]
    exact List.mem_append_right _ (List.mem_singleton_self _)
  refine ⟨hmem, ?_⟩
  intro kv2 key2 epName2 tgt2 hrt2 hfind2
  set st' := dispatchStep C st kv with hst'
  have hens : ensureUsed st' egID = st' := by
    have hany : st'.usedConverters.any (fun p => p.1 = egID) = true := by
      rw [hstep]
      exact pushUsedAux_any _ egID conv.cid
    unfold ensureUsed
    rw [if_pos hany]
  have hcond : C.ty = "set"
      ∧ (usedFor (ensureUsed st' egID) egID).contains conv.cid = true := by
    refine ⟨hty, ?_⟩
    rw [hens]
    simpa using hmem
  dsimp only [dispatchStep]
  rw [hrt2]
  dsimp only [dispatchCore]
  rw [hfind2]
  dsimp only
  rw [if_pos hcond]
  exact hens

/-- Witness for C2 at a concrete throwing converter. -/
theorem c2_converter_exception_contained_witness :
    dispatchLoop cW emptyLoopState [("state", JValue.str "ON"), ("color", JValue.num 1)]
      = dispatchLoop cW (dispatchStep cW emptyLoopState ("state", JValue.str "ON"))
          [("color", JValue.num 1)]
    ∧ (dispatchStep cW emptyLoopState ("state", JValue.str "ON")).toPublish
        = emptyLoopState.toPublish
    ∧ (dispatchStep cW emptyLoopState ("state", JValue.str "ON")).adds
        = emptyLoopState.adds
    ∧ (dispatchStep cW emptyLoopState ("state", JValue.str "ON")).scheduled
        = emptyLoopState.scheduled
    ∧ (dispatchStep cW emptyLoopState ("state", JValue.str "ON")).logs
        = emptyLoopState.logs
          ++ [.debugPublishing cW.ty "state" cW.name,
              .errorPublishFailed cW.ty "state" cW.name "boom"]
    ∧ (dispatchStep cW emptyLoopState ("state", JValue.str "ON")).diags
        = emptyLoopState.diags
          ++ (if cW.legacy then [.zigbeePublishError cW.ty "state" cW.name] else []) :=
  c2_converter_exception_contained cW emptyLoopState ("state", .str "ON")
    [("color", .num 1)] "state" "" (.endpoint 1) "1" throwingConverter "boom"
    rfl rfl (by decide)
    (Or.inl ⟨rfl, ⟨fun _ _ _ _ => .error "boom", rfl, rfl⟩⟩)

/-- Witness for C10 at a concrete throwing converter: the second `state`
attribute of the same message is skipped with no state change at all. -/
theorem c10_thrown_converter_not_retried_witness :
    throwingConverter.cid
        ∈ usedFor (dispatchStep cW emptyLoopState ("state", JValue.str "ON")) "1"
    ∧ dispatchStep cW (dispatchStep cW emptyLoopState ("state", JValue.str "ON"))
        ("state", JValue.num 0)
      = dispatchStep cW emptyLoopState ("state", JValue.str "ON") :=
  let h := c10_thrown_converter_not_retried cW emptyLoopState ("state", .str "ON")
    "state" "" (.endpoint 1) "1" throwingConverter "boom"
    (fun _ _ _ _ => .error "boom") rfl rfl rfl rfl rfl rfl
  ⟨h.1, h.2 ("state", .num 0) "state" "" (.endpoint 1) rfl rfl⟩

/-! ### C3: the optimistic aggregation buffer -/

theorem mergedAdds_append (ps : List JObj) (p : JObj) :
    mergedAdds (ps ++ [p]) = some (jsObjMerge ((mergedAdds ps).getD []) p) := by
  unfold mergedAdds
  rw [List.foldl_append]
  rfl

theorem addsFor_append (adds : List (AddSrc × String × JObj)) (src : AddSrc)
    (id : String) (p : JObj) (id' : String) :
    addsFor (adds ++ [(src, id, p)]) id' =
      addsFor adds id' ++ (if id = id' then [p] else []) := by
  unfold addsFor
  rw [List.filter_append, List.map_append]
  by_cases h : id = id' <;> simp [h]

theorem lookupPub_addAux_eq (l : List (String × JObj)) (id : String) (p : JObj) :
    lookupPub (addToToPublishAux l id p) id
      = some (jsObjMerge ((lookupPub l id).getD []) p) := by
  induction l with
  | nil =>
    unfold lookupPub addToToPublishAux
    rw [List.find?_nil, List.find?_cons_of_pos _ (by simp)]
    rfl
  | cons q qs ih =>
    by_cases hq : q.1 = id
    · unfold lookupPub addToToPublishAux
      rw [if_pos hq, List.find?_cons_of_pos _ (by simp),
        List.find?_cons_of_pos _ (by simpa using hq)]
      rfl
    · unfold lookupPub addToToPublishAux
      rw [if_neg hq, List.find?_cons_of_neg _ (by simpa using hq),
        List.find?_cons_of_neg _ (by simpa using hq)]
      exact ih

theorem lookupPub_addAux_ne (l : List (String × JObj)) (id : String) (p : JObj)
    (id' : String) (h : id' ≠ id) :
    lookupPub (addToToPublishAux l id p) id' = lookupPub l id' := by
  induction l with
  | nil =>
    unfold lookupPub addToToPublishAux
    rw [List.find?_nil, List.find?_cons_of_neg _ (by simpa using fun hh => h hh.symm)]
    rfl
  | cons q qs ih =>
    by_cases hq : q.1 = id
    · have hq' : ¬ q.1 = id' := fun hh => h ((hh ▸ hq : id' = id))
      unfold lookupPub addToToPublishAux
      rw [if_pos hq, List.find?_cons_of_neg _ (by simpa using fun hh => h hh.symm),
        List.find?_cons_of_neg _ (by simpa using hq')]
    · by_cases hqi : q.1 = id'
      · unfold lookupPub addToToPublishAux
        rw [if_neg hq, List.find?_cons_of_pos _ (by simpa using hqi),
          List.find?_cons_of_pos _ (by simpa using hqi)]
      · unfold lookupPub addToToPublishAux
        rw [if_neg hq, List.find?_cons_of_neg _ (by simpa using hqi),
          List.find?_cons_of_neg _ (by simpa using hqi)]
        exact ih

theorem keys_addAux (l : List (String × JObj)) (id : String) (p : JObj) :
    (addToToPublishAux l id p).map Prod.fst
      = if id ∈ l.map Prod.fst then l.map Prod.fst
        else l.map Prod.fst ++ [id] := by
  induction l with
  | nil => simp [addToToPublishAux]
  | cons q qs ih =>
    by_cases hq : q.1 = id
    · simp [addToToPublishAux, hq]
    · have : id ∈ q.1 :: qs.map Prod.fst ↔ id ∈ qs.map Prod.fst := by
        rw [List.mem_cons]
        constructor
        · intro h
          rcases h with h | h
          · exact absurd h.symm hq
          · exact h
        · exact Or.inr
      simp only [addToToPublishAux, if_neg hq, List.map_cons]
      by_cases hm : id ∈ qs.map Prod.fst
      · rw [if_pos (this.2 hm)] at *
        rw [ih, if_pos hm]
      · rw [if_neg (fun hh => hm (this.1 hh))]
        rw [ih, if_neg hm]
        rfl

theorem addToToPublish_C3Inv (st : LoopState) (src : AddSrc) (id : String)
    (p : JObj) (hp : src = AddSrc.entity → p ≠ ([] : JObj)) (h : C3Inv st) :
    C3Inv (addToToPublish st src id p) := by
  obtain ⟨hnd, hmerge, hent⟩ := h
  refine ⟨?_, ?_, ?_⟩
  · show ((addToToPublishAux st.toPublish id p).map Prod.fst).Nodup
    rw [keys_addAux]
    split
    · exact hnd
    · rename_i hnm
      rw [List.nodup_append]
      exact ⟨hnd, List.nodup_singleton _,
        fun a ha hb => by
          simp only [List.mem_singleton] at hb
          exact hnm (hb ▸ ha)⟩
  · intro id'
    show lookupPub (addToToPublishAux st.toPublish id p) id'
      = mergedAdds (addsFor (st.adds ++ [(src, id, p)]) id')
    rw [addsFor_append]
    by_cases hid : id' = id
    · subst hid
      rw [lookupPub_addAux_eq, if_pos rfl, mergedAdds_append, hmerge]
    · rw [lookupPub_addAux_ne _ _ _ _ hid,
        if_neg (fun hh => hid hh.symm), List.append_nil, hmerge]
  · intro a ha hsrc
    rcases List.mem_append.1 ha with hold | hnew
    · exact hent a hold hsrc
    · simp only [List.mem_singleton] at hnew
      subst hnew
      exact hp hsrc

theorem membersFold_C3Inv (ms : List (String × JObj)) (s : LoopState)
    (h : C3Inv s) :
    C3Inv (ms.foldl (fun s p => addToToPublish s .member p.1 p.2) s) := by
  induction ms generalizing s with
  | nil => exact h
  | cons p ps ih =>
    exact ih _ (addToToPublish_C3Inv s .member p.1 p.2 (fun hh => nomatch hh) h)

theorem isEmpty_false_ne {α : Type} {l : List α} (h : ¬ l.isEmpty = true) :
    l ≠ [] := by
  cases l with
  | nil => exact absurd rfl h
  | cons a as => exact fun hh => nomatch hh

theorem runSet_C3Inv (C : DispatchCtx) (st : LoopState) (conv : Converter)
    (f : Target → String → JValue → Meta → Except String (Option ConvResult))
    (tgt : Target) (egID key : String) (v : JValue) (ep : String)
    (h : C3Inv st) : C3Inv (runSet C st conv f tgt egID key v ep) := by
  dsimp only [runSet]
  cases hf : f tgt key v (mkMeta C ep) with
  | error e => exact h
  | ok r =>
    cases r with
    | none => exact h
    | some rr =>
      dsimp only
      repeat' split
      all_goals
        first
        | exact h
        | exact membersFold_C3Inv _ _ h
        | (rename_i hne
           first
           | exact addToToPublish_C3Inv _ _ _ _ (fun _ => isEmpty_false_ne hne) h
           | exact membersFold_C3Inv _ _
               (addToToPublish_C3Inv _ _ _ _ (fun _ => isEmpty_false_ne hne) h))

theorem runGet_C3Inv (C : DispatchCtx) (st : LoopState) (conv : Converter)
    (g : Target → String → Meta → Except String Unit)
    (tgt : Target) (egID key : String) (ep : String)
    (h : C3Inv st) : C3Inv (runGet C st conv g tgt egID key ep) := by
  dsimp only [runGet]
  cases hg : g tgt key (mkMeta C ep) with
  | error e => exact h
  | ok u => exact h

theorem dispatchOp_C3Inv (C : DispatchCtx) (st : LoopState) (conv : Converter)
    (tgt : Target) (egID key : String) (v : JValue) (ep : String)
    (h : C3Inv st) : C3Inv (dispatchOp C st conv tgt egID key v ep).1 := by
  dsimp only [dispatchOp]
  cases C.ty == "set" with
  | true =>
    cases conv.convertSet with
    | some f => exact runSet_C3Inv C st conv f tgt egID key v ep h
    | none =>
      cases C.ty == "get" with
      | true =>
        cases conv.convertGet with
        | some g => exact runGet_C3Inv C st conv g tgt egID key ep h
        | none => exact h
      | false => exact h
  | false =>
    cases C.ty == "get" with
    | true =>
      cases conv.convertGet with
      | some g => exact runGet_C3Inv C st conv g tgt egID key ep h
      | none => exact h
    | false => exact h

theorem ensureUsed_C3Inv (st : LoopState) (id : String) (h : C3Inv st) :
    C3Inv (ensureUsed st id) := by
  unfold ensureUsed
  split
  · exact h
  · exact h

theorem dispatchStep_C3Inv (C : DispatchCtx) (st : LoopState)
    (kv : String × JValue) (h : C3Inv st) : C3Inv (dispatchStep C st kv) := by
  dsimp only [dispatchStep]
  rcases hrt : resolveKeyTarget C kv.1 with ⟨key, epName, tgt?, egID⟩
  cases tgt? with
  | none => exact h
  | some tgt =>
    dsimp only [dispatchCore]
    have h1 := ensureUsed_C3Inv st egID h
    cases hfind : C.converters.find? (fun c => c.key.contains key) with
    | none => exact h1
    | some conv =>
      dsimp only
      split
      · exact h1
      · have h2 := dispatchOp_C3Inv C (ensureUsed st egID) conv tgt egID key
          kv.2 epName h1
        split
        · exact h2
        · exact h2

theorem dispatchLoop_C3Inv (C : DispatchCtx) (entries : List (String × JValue)) :
    ∀ st : LoopState, C3Inv st → C3Inv (dispatchLoop C st entries) := by
  induction entries with
  | nil => exact fun st h => h
  | cons e es ih =>
    intro st h
    exact ih (dispatchStep C st e) (dispatchStep_C3Inv C st e h)

/-- The loop never emits a publish event: each step appends at most one
converter-call event to the trace. -/
theorem dispatchStep_trace_tail (C : DispatchCtx) (st : LoopState)
    (kv : String × JValue) :
    ∃ tail, (dispatchStep C st kv).trace = st.trace ++ tail
      ∧ ∀ e ∈ tail, ¬isPubEv e := by
  dsimp only [dispatchStep]
  rcases hrt : resolveKeyTarget C kv.1 with ⟨key, epName, tgt?, egID⟩
  cases tgt? with
  | none => exact ⟨[], by simp, by simp⟩
  | some tgt =>
    dsimp only [dispatchCore]
    have htr := (ensureUsed_fields st egID).2.2.1
    cases hfind : C.converters.find? (fun c => c.key.contains key) with
    | none => exact ⟨[], by simp [htr], by simp⟩
    | some conv =>
      dsimp only
      split
      · exact ⟨[], by simp [htr], by simp⟩
      · obtain ⟨hused, hcases⟩ :=
          dispatchOp_shape C (ensureUsed st egID) conv tgt egID key kv.2 epName
        rcases hcases with ⟨htrace, hpush⟩ | ⟨_, htrace, hpush⟩ | ⟨htrace, hpush⟩ <;>
          rw [hpush]
        · simp only [Bool.false_eq_true, if_false]
          exact ⟨[], by rw [htrace, htr]; simp, by simp⟩
        · simp only [if_true]
          refine ⟨[.setCall conv.cid tgt egID key kv.2 (mkMeta C epName)], ?_, ?_⟩
          · rw [(pushUsed_fields _ egID conv.cid).2.2.1, htrace, htr]
          · intro e he
            simp only [List.mem_singleton] at he
            subst he
            exact fun hh => nomatch hh
        · simp only [if_true]
          refine ⟨[.getCall conv.cid tgt egID key (mkMeta C epName)], ?_, ?_⟩
          · rw [(pushUsed_fields _ egID conv.cid).2.2.1, htrace, htr]
          · intro e he
            simp only [List.mem_singleton] at he
            subst he
            exact fun hh => nomatch hh

theorem dispatchLoop_trace_tail (C : DispatchCtx) (entries : List (String × JValue)) :
    ∀ st : LoopState, ∃ tail, (dispatchLoop C st entries).trace = st.trace ++ tail
      ∧ ∀ e ∈ tail, ¬isPubEv e := by
  induction entries with
  | nil => exact fun st => ⟨[], by simp [dispatchLoop], by simp⟩
  | cons e es ih =>
    intro st
    obtain ⟨t1, ht1, hp1⟩ := dispatchStep_trace_tail C st e
    obtain ⟨t2, ht2, hp2⟩ := ih (dispatchStep C st e)
    refine ⟨t1 ++ t2, ?_, ?_⟩
    · show (dispatchLoop C (dispatchStep C st e) es).trace = st.trace ++ (t1 ++ t2)
      rw [ht2, ht1, List.append_assoc]
    · intro x hx
      rcases List.mem_append.1 hx with hx | hx
      · exact hp1 x hx
      · exact hp2 x hx

theorem jsKeyOrder_perm {α : Type} (l : List (String × α)) :
    List.Perm (jsKeyOrder l) l := by
  unfold jsKeyOrder
  refine List.Perm.trans
    (List.Perm.append_right _ (List.perm_insertionSort _ _)) ?_
  exact List.filter_append_perm _ l

theorem pubs_filterMap_pubFree (l : List Ev) (h : ∀ e ∈ l, ¬isPubEv e) :
    (l.filterMap (fun e =>
      match e with
      | Ev.publishState id p => some (id, p)
      | _ => none)) = [] := by
  induction l with
  | nil => rfl
  | cons e es ih =>
    cases e with
    | publishState id p => exact absurd trivial (h _ (List.mem_cons_self _ _))
    | setCall cid tgt egID key v meta =>
      simpa using ih (fun x hx => h x (List.mem_cons_of_mem _ hx))
    | getCall cid tgt egID key meta =>
      simpa using ih (fun x hx => h x (List.mem_cons_of_mem _ hx))

theorem pubs_filterMap_map (ps : List (String × JObj)) :
    ((ps.map (fun p => Ev.publishState p.1 p.2)).filterMap (fun e =>
      match e with
      | Ev.publishState id p => some (id, p)
      | _ => none)) = ps := by
  induction ps with
  | nil => rfl
  | cons p qs ih => simpa using ih

theorem C3Out_trivial (r : Option Bool) (lg : List LogEv) (dg : List DiagEv) :
    C3Out { emptyOutput r with logs := lg, diags := dg } := by
  refine ⟨⟨[], rfl, by simp⟩, rfl, List.nodup_nil, List.nodup_nil,
    fun id => rfl, ?_⟩
  intro a ha
  exact absurd ha (List.not_mem_nil a)

theorem C3Out_flush (st : LoopState) (hinv : C3Inv st)
    (hpf : ∀ e ∈ st.trace, ¬isPubEv e) (r : Option Bool) (lg : List LogEv) :
    C3Out { ret := r,
            trace := st.trace
              ++ (jsKeyOrder st.toPublish).map (fun p => Ev.publishState p.1 p.2),
            logs := lg, diags := st.diags, scheduled := st.scheduled,
            adds := st.adds, toPublish := st.toPublish } := by
  obtain ⟨hnd, hmerge, hent⟩ := hinv
  refine ⟨⟨st.trace, rfl, hpf⟩, ?_, hnd, ?_, hmerge, hent⟩
  · show (st.trace ++ _).filterMap _ = jsKeyOrder st.toPublish
    rw [List.filterMap_append, pubs_filterMap_pubFree st.trace hpf,
      pubs_filterMap_map, List.nil_append]
  · show ((st.trace ++ _).filterMap _).map Prod.fst |>.Nodup
    rw [List.filterMap_append, pubs_filterMap_pubFree st.trace hpf,
      pubs_filterMap_map, List.nil_append]
    exact (((jsKeyOrder_perm st.toPublish).map Prod.fst).nodup_iff).2 hnd

theorem C3Inv_empty : C3Inv emptyLoopState := by
  refine ⟨List.nodup_nil, fun id => rfl, ?_⟩
  intro a ha
  exact absurd ha (List.not_mem_nil a)

theorem runPipeline_C3Out (W : World) (topic : TopicDesc) (m : String)
    (isDevice : Bool) (dd : Option DeviceDef) (target : Target)
    (converters : List Converter) (options : EntitySettings)
    (ms : Option (List (String × Option JObj))) :
    C3Out (runPipeline W topic m isDevice dd target converters options ms) := by
  dsimp only [runPipeline]
  cases hdec : decodePayload W topic m with
  | none => exact C3Out_trivial _ _ _
  | some json0 =>
    try simp only [hdec]
    split
    · exact C3Out_trivial _ _ _
    · refine C3Out_flush _ ?_ ?_ _ _
      · exact dispatchLoop_C3Inv _ _ emptyLoopState C3Inv_empty
      · obtain ⟨tail, htr, hpf⟩ := dispatchLoop_trace_tail _ _ emptyLoopState
        rw [htr]
        intro e he
        exact hpf e (by simpa [emptyLoopState] using he)

/-- C3 (amended): the optimistic buffer is flushed to state publishes only
after all attributes are processed, exactly once per accumulated identifier,
each publish carrying the merge of all deltas accumulated for that
identifier during the message; no publish happens inside the dispatch loop.
Entity-path deltas are only accumulated when nonempty after filtering, but
an empty group-member delta can be accumulated and flushed. -/
theorem c3_flush_after_loop_merged (W : World) (t m : String) :
    C3Out (onMQTTMessage W t m) := by
  dsimp only [onMQTTMessage]
  cases hp : parseTopic W.settings W.endpointNames t with
  | none => exact C3Out_trivial _ _ _
  | some topic =>
    try simp only [hp]
    cases hre : W.resolveEntity (entityKeyOf topic) with
    | none =>
      try simp only [hre]
      exact C3Out_trivial _ _ _
    | some re =>
      try simp only [hre]
      cases re with
      | device d =>
        cases hd : d.definition with
        | none =>
          try simp only [hd]
          exact C3Out_trivial _ _ _
        | some dd =>
          try simp only [hd]
          exact runPipeline_C3Out W topic m true (some dd) d.endpoint
            dd.toZigbee d.settings none
      | group g =>
        exact runPipeline_C3Out W topic m false none (.group g.groupID)
          (groupConverters g.members) g.settings _

/-- Counterexample to C3 as stated: a converter whose result carries an
empty member-state delta makes the message flush an empty entry — the
publish for `0xdead` carries the empty map, contradicting "no empty entry
is flushed". -/
theorem c3_counterexample :
    statePublishes (onMQTTMessage c3World "base/lamp1/set" "ON")
      = [("0xdead", ([] : JObj))] := rfl

/-! ### C6: endpoint-suffix stripping and re-attachment -/

theorem strAppend_right_cancel {a b c : String} (h : a ++ c = b ++ c) :
    a = b := by
  have hd : a.data ++ c.data = b.data ++ c.data := by
    rw [← String.data_append, ← String.data_append, h]
  have hdc := List.append_cancel_right hd
  cases a
  cases b
  exact congrArg String.mk hdc

theorem jsObjGet_cons_self (k : String) (v : JValue) (l : JObj) :
    jsObjGet ((k, v) :: l) k = some v := by
  unfold jsObjGet
  rw [List.find?_cons_of_pos _ (by simp)]
  rfl

theorem jsObjSet_not_mem (l : JObj) (k : String) (v : JValue)
    (h : k ∉ l.map Prod.fst) : jsObjSet l k v = l ++ [(k, v)] := by
  induction l with
  | nil => rfl
  | cons q qs ih =>
    have hq : ¬ q.1 = k := by
      intro hh
      exact h (by simp [← hh])
    simp only [jsObjSet, if_neg hq, List.cons_append]
    rw [ih (fun hh => h (List.mem_cons_of_mem _ hh))]

theorem jsObjDelete_cons_self (k : String) (v : JValue) (l : JObj) :
    jsObjDelete ((k, v) :: l) k = l := by
  simp [jsObjDelete]

/-- The re-suffixing pass over a snapshot of keys, in invariant form:
already-processed suffixed entries sit at the back, pending originals at the
front. -/
theorem convResuffix_go (ep : String) (pending : JObj) :
    ∀ done : JObj,
      ((pending ++ done).map Prod.fst).Nodup →
      (∀ k ∈ pending.map Prod.fst,
        (k ++ "_" ++ ep) ∉ (pending ++ done).map Prod.fst) →
      (pending.map Prod.fst).foldl
        (fun m k =>
          match jsObjGet m k with
          | some v => jsObjDelete (jsObjSet m (k ++ "_" ++ ep) v) k
          | none => m)
        (pending ++ done)
      = done ++ pending.map (fun p => (p.1 ++ "_" ++ ep, p.2)) := by
  induction pending with
  | nil =>
    intro done hnd hcol
    simp
  | cons q rest ih =>
    intro done hnd hcol
    obtain ⟨k, v⟩ := q
    simp only [List.map_cons, List.foldl_cons, List.cons_append]
    rw [jsObjGet_cons_self]
    dsimp only
    have hksfx : (k ++ "_" ++ ep) ∉ ((k, v) :: (rest ++ done)).map Prod.fst := by
      have := hcol k (by simp)
      simpa using this
    rw [jsObjSet_not_mem _ _ _ hksfx]
    rw [show ((k, v) :: (rest ++ done)) ++ [(k ++ "_" ++ ep, v)]
        = (k, v) :: (rest ++ (done ++ [(k ++ "_" ++ ep, v)])) by simp]
    rw [jsObjDelete_cons_self]
    have hknd : k ∉ (rest ++ done).map Prod.fst := by
      have := hnd
      simp only [List.cons_append, List.map_cons, List.nodup_cons] at this
      exact this.1
    have hnd' : ((rest ++ (done ++ [(k ++ "_" ++ ep, v)])).map Prod.fst).Nodup := by
      rw [show rest ++ (done ++ [(k ++ "_" ++ ep, v)])
          = (rest ++ done) ++ [(k ++ "_" ++ ep, v)] by simp]
      rw [List.map_append, List.nodup_append]
      have hnd0 : ((rest ++ done).map Prod.fst).Nodup := by
        have := hnd
        simp only [List.cons_append, List.map_cons, List.nodup_cons] at this
        exact this.2
      refine ⟨hnd0, List.nodup_singleton _, ?_⟩
      intro a ha hb
      simp only [List.map_cons, List.map_nil, List.mem_singleton] at hb
      subst hb
      have := hcol k (by simp)
      simp only [List.cons_append, List.map_cons, List.mem_cons] at this
      exact this (Or.inr ha)
    have hcol' : ∀ k2 ∈ rest.map Prod.fst,
        (k2 ++ "_" ++ ep) ∉ (rest ++ (done ++ [(k ++ "_" ++ ep, v)])).map Prod.fst := by
      intro k2 hk2 hmem
      rw [show rest ++ (done ++ [(k ++ "_" ++ ep, v)])
          = (rest ++ done) ++ [(k ++ "_" ++ ep, v)] by simp] at hmem
      rw [List.map_append, List.mem_append] at hmem
      rcases hmem with hmem | hmem
      · have := hcol k2 (by simp [hk2])
        simp only [List.cons_append, List.map_cons, List.mem_cons] at this
        exact this (Or.inr hmem)
      · simp only [List.map_cons, List.map_nil, List.mem_singleton] at hmem
        have hkk : k2 ++ "_" = k ++ "_" :=
          strAppend_right_cancel hmem
        have hkk2 : k2 = k := strAppend_right_cancel hkk
        subst hkk2
        exact hknd (by rw [List.map_append]; exact List.mem_append_left _ hk2)
    rw [ih (done ++ [(k ++ "_" ++ ep, v)]) hnd' hcol']
    simp

/-- When the suffixed keys collide with nothing, re-suffixing is exactly the
keywise append of `_<endpoint>`. -/
theorem convResuffix_eq_map (ep : String) (msg : JObj)
    (hnd : (msg.map Prod.fst).Nodup)
    (hcol : ∀ k ∈ msg.map Prod.fst, (k ++ "_" ++ ep) ∉ msg.map Prod.fst) :
    convResuffix msg ep = msg.map (fun p => (p.1 ++ "_" ++ ep, p.2)) := by
  have h := convResuffix_go ep msg [] (by simpa using hnd) (by simpa using hcol)
  unfold convResuffix
  simpa using h

theorem applyFiltered_none (opts : EntitySettings) (msg : JObj)
    (h : opts.filtered_optimistic = none) : applyFiltered opts msg = msg := by
  unfold applyFiltered
  rw [h]

/-- The `set` branch on a successful conversion that returns a state delta:
the (possibly re-suffixed) filtered delta is accumulated for the entity. -/
theorem runSet_ok_adds (C : DispatchCtx) (st : LoopState) (conv : Converter)
    (f : Target → String → JValue → Meta → Except String (Option ConvResult))
    (tgt : Target) (egID key : String) (v : JValue) (ep : String)
    (r : ConvResult) (delta : JObj)
    (hf : f tgt key v (mkMeta C ep) = .ok (some r))
    (hstate : r.state = some delta)
    (hms : r.membersState = none)
    (hopt : C.options.optimistic.getD true = true)
    (hfil : C.options.filtered_optimistic = none)
    (hep : ep ≠ "")
    (hne : ¬ (convResuffix delta ep).isEmpty = true) :
    (runSet C st conv f tgt egID key v ep).adds
      = st.adds ++ [(.entity, C.options.ID, convResuffix delta ep)] := by
  dsimp only [runSet]
  rw [hf]
  have hne2 : (convResuffix delta ep).isEmpty = false := by
    rwa [Bool.not_eq_true] at hne
  cases hr : r.readAfterWriteTime with
  | none =>
    simp [hstate, hms, hopt, hr, applyFiltered, hfil, hep, hne2, addToToPublish]
  | some d =>
    by_cases hrs : C.isDevice = true ∧ C.options.retrieve_state = true
    · simp [hstate, hms, hopt, hr, applyFiltered, hfil, hep, hne2,
        addToToPublish, hrs]
    · simp [hstate, hms, hopt, hr, applyFiltered, hfil, hep, hne2,
        addToToPublish, hrs]

/-- C6: when a SET attribute's key carries a declared endpoint-name suffix
on a device, the dispatcher strips the suffix before converter selection and
invocation, retargets the write to the endpoint the suffix names, keys the
used-converter bookkeeping by the endpoint name, hands the converter a
message copy with suffixed keys rewritten to their bare form, and re-attaches
the suffix to every key of the optimistic state delta before accumulating
it — the round-tripped delta carries the original suffixed keys. -/
theorem c6_endpoint_suffix_roundtrip (C : DispatchCtx) (st : LoopState)
    (key : String) (v : JValue) (name : String) (dd : DeviceDef)
    (tgt : Target) (conv : Converter)
    (f : Target → String → JValue → Meta → Except String (Option ConvResult))
    (r : ConvResult) (delta : JObj)
    (hdev : C.isDevice = true)
    (hdd : C.deviceDef = some dd)
    (hund : strContainsChar key '_' = true)
    (hfindn : C.endpointNames.find? (fun n => strEndsWith key ("_" ++ n)) = some name)
    (hname : name ≠ "")
    (hep : dd.endpointByName name = some tgt)
    (hconv : C.converters.find?
      (fun c => c.key.contains (stripSuffixGM key name)) = some conv)
    (hty : C.ty = "set")
    (hns : (usedFor st name).contains conv.cid = false)
    (hcs : conv.convertSet = some f)
    (hres : f tgt (stripSuffixGM key name) v (mkMeta C name) = .ok (some r))
    (hstate : r.state = some delta)
    (hms : r.membersState = none)
    (hopt : C.options.optimistic.getD true = true)
    (hfil : C.options.filtered_optimistic = none)
    (hdne : delta ≠ [])
    (hdnd : (delta.map Prod.fst).Nodup)
    (hdcol : ∀ k ∈ delta.map Prod.fst,
      (k ++ "_" ++ name) ∉ delta.map Prod.fst) :
    resolveKeyTarget C key = (stripSuffixGM key name, name, some tgt, name)
    ∧ (mkMeta C name).endpoint_name = name
    ∧ (mkMeta C name).message = rewriteMsgKeys (jsSpreadObj C.json) name
    ∧ (dispatchStep C st (key, v)).trace
        = st.trace ++ [.setCall conv.cid tgt name (stripSuffixGM key name) v
            (mkMeta C name)]
    ∧ (dispatchStep C st (key, v)).adds
        = st.adds ++ [(.entity, C.options.ID,
            delta.map (fun p => (p.1 ++ "_" ++ name, p.2)))] := by
  have hsfx : convResuffix delta name
      = delta.map (fun p => (p.1 ++ "_" ++ name, p.2)) :=
    convResuffix_eq_map name delta hdnd hdcol
  have hrt : resolveKeyTarget C key
      = (stripSuffixGM key name, name, some tgt, name) := by
    unfold resolveKeyTarget
    rw [if_pos ⟨hdev, hund⟩, hfindn, hdd]
    dsimp only
    rw [hep]
  have hmm : (mkMeta C name).message = rewriteMsgKeys (jsSpreadObj C.json) name := by
    dsimp only [mkMeta]
    rw [if_pos hname]
  have hns' : ¬(C.ty = "set"
      ∧ (usedFor (ensureUsed st name) name).contains conv.cid = true) := by
    rw [usedFor_ensureUsed, hns]
    simp
  have hne : ¬ (convResuffix delta name).isEmpty = true := by
    rw [hsfx]
    intro hh
    have := isEmpty_false_ne (l := delta.map (fun p => (p.1 ++ "_" ++ name, p.2)))
    cases hd : delta with
    | nil => exact hdne hd
    | cons a as =>
      subst hd
      simp at hh
  have hop : dispatchOp C (ensureUsed st name) conv tgt name
      (stripSuffixGM key name) v name
      = (runSet C (ensureUsed st name) conv f tgt name
          (stripSuffixGM key name) v name, true) := by
    dsimp only [dispatchOp]
    rw [hcs, show (C.ty == "set") = true by simp [hty]]
  have hstep : dispatchStep C st (key, v)
      = pushUsed (runSet C (ensureUsed st name) conv f tgt name
          (stripSuffixGM key name) v name) name conv.cid := by
    dsimp only [dispatchStep]
    rw [hrt]
    dsimp only [dispatchCore]
    rw [hconv]
    dsimp only
    rw [if_neg hns', hop]
    rfl
  have hshape := runSet_shape C (ensureUsed st name) conv f tgt name
    (stripSuffixGM key name) v name
  refine ⟨hrt, rfl, hmm, ?_, ?_⟩
  · rw [hstep, (pushUsed_fields _ name conv.cid).2.2.1, hshape.2,
      (ensureUsed_fields st name).2.2.1]
  · rw [hstep]
    show (runSet C (ensureUsed st name) conv f tgt name
        (stripSuffixGM key name) v name).adds = _
    rw [runSet_ok_adds C _ conv f tgt name (stripSuffixGM key name) v name r
        delta hres hstate hms hopt hfil hname hne,
      (ensureUsed_fields st name).2.1, hsfx]

/-- Witness for C6 on the spec's `{"state_left":"ON"}` scenario. -/
theorem c6_endpoint_suffix_roundtrip_witness :
    resolveKeyTarget c6ctx "state_left"
      = (stripSuffixGM "state_left" "left", "left", some (.endpoint 2), "left")
    ∧ (mkMeta c6ctx "left").endpoint_name = "left"
    ∧ (mkMeta c6ctx "left").message
        = rewriteMsgKeys (jsSpreadObj c6ctx.json) "left"
    ∧ (dispatchStep c6ctx emptyLoopState ("state_left", JValue.str "ON")).trace
        = emptyLoopState.trace ++ [.setCall c6conv.cid (.endpoint 2) "left"
            (stripSuffixGM "state_left" "left") (JValue.str "ON")
            (mkMeta c6ctx "left")]
    ∧ (dispatchStep c6ctx emptyLoopState ("state_left", JValue.str "ON")).adds
        = emptyLoopState.adds ++ [(.entity, c6ctx.options.ID,
            ([("state", JValue.str "ON")] : JObj).map
              (fun p => (p.1 ++ "_" ++ "left", p.2)))] :=
  c6_endpoint_suffix_roundtrip c6ctx emptyLoopState "state_left"
    (JValue.str "ON") "left" c6dd (.endpoint 2) c6conv
    (fun _ _ _ _ => .ok (some
      { state := some [("state", JValue.str "ON")], membersState := none,
        readAfterWriteTime := none }))
    { state := some [("state", JValue.str "ON")], membersState := none,
      readAfterWriteTime := none }
    [("state", JValue.str "ON")]
    rfl rfl rfl rfl (by decide) rfl rfl rfl rfl rfl rfl rfl rfl rfl rfl
    (fun h => List.noConfusion h) (by decide) (by decide)

/-! ### C9: the topic parser -/

theorem matchAttr_sound (rem : List Char) (a : String)
    (h : matchAttr rem = some a) :
    a ≠ "" ∧ '\n' ∉ a.data ∧ ∃ rest, rem = '/' :: (a.data ++ rest) := by
  unfold matchAttr at h
  split at h
  · rename_i rest
    dsimp only at h
    split at h
    · cases h
    · rename_i hne
      injection h with h'
      subst h'
      refine ⟨?_, ?_, ⟨rest.dropWhile (fun c => c ≠ '\n'), ?_⟩⟩
      · intro hh
        apply hne
        have hdata : rest.takeWhile (fun c => c ≠ '\n') = [] :=
          congrArg String.data hh
        rw [hdata]
        rfl
      · intro hmem
        have := List.mem_takeWhile_imp hmem
        simp at this
      · rw [show (String.mk (rest.takeWhile (fun c => c ≠ '\n'))).data
            = rest.takeWhile (fun c => c ≠ '\n') from rfl]
        rw [List.takeWhile_append_dropWhile]
  · cases h

theorem matchAction_sound (rem : List Char) (ty : String) (attr : Option String)
    (h : matchAction rem = some (ty, attr)) :
    (ty = "get" ∨ ty = "set")
    ∧ (∀ a, attr = some a → a ≠ "" ∧ '\n' ∉ a.data)
    ∧ ∃ rest, rem = ('/' :: ty.data) ++ attrPartOf attr ++ rest := by
  unfold matchAction at h
  split at h
  · rename_i hpre
    injection h with h'
    rw [Prod.mk.injEq] at h'
    obtain ⟨hty, hattr⟩ := h'
    subst hty
    obtain ⟨tail, htail⟩ : ∃ t, ['/', 'g', 'e', 't'] ++ t = rem := by
      have := (List.isPrefixOf_iff_prefix).1 hpre
      exact this
    have hdrop : rem.drop 4 = tail := by
      rw [← htail]
      exact List.drop_left' (by simp)
    rw [hdrop] at hattr
    cases hma : matchAttr tail with
    | none =>
      rw [hma] at hattr
      subst hattr
      refine ⟨Or.inl rfl, ?_, ⟨tail, ?_⟩⟩
      · intro a ha
        cases ha
      · rw [← htail]
        rfl
    | some a =>
      rw [hma] at hattr
      subst hattr
      obtain ⟨hane, hanl, rest, hrest⟩ := matchAttr_sound tail a hma
      refine ⟨Or.inl rfl, ?_, ⟨rest, ?_⟩⟩
      · intro a' ha'
        injection ha' with ha'
        subst ha'
        exact ⟨hane, hanl⟩
      · rw [← htail, hrest]
        rfl
  · split at h
    · rename_i hpre
      injection h with h'
      rw [Prod.mk.injEq] at h'
      obtain ⟨hty, hattr⟩ := h'
      subst hty
      obtain ⟨tail, htail⟩ : ∃ t, ['/', 's', 'e', 't'] ++ t = rem := by
        have := (List.isPrefixOf_iff_prefix).1 hpre
        exact this
      have hdrop : rem.drop 4 = tail := by
        rw [← htail]
        exact List.drop_left' (by simp)
      rw [hdrop] at hattr
      cases hma : matchAttr tail with
      | none =>
        rw [hma] at hattr
        subst hattr
        refine ⟨Or.inr rfl, ?_, ⟨tail, ?_⟩⟩
        · intro a ha
          cases ha
        · rw [← htail]
          rfl
      | some a =>
        rw [hma] at hattr
        subst hattr
        obtain ⟨hane, hanl, rest, hrest⟩ := matchAttr_sound tail a hma
        refine ⟨Or.inr rfl, ?_, ⟨rest, ?_⟩⟩
        · intro a' ha'
          injection ha' with ha'
          subst ha'
          exact ⟨hane, hanl⟩
        · rw [← htail, hrest]
          rfl
    · cases h

theorem matchTail_sound (names : List String) (rem : List Char)
    (ep : Option String) (ty : String) (attr : Option String)
    (h : matchTail names rem = some (ep, ty, attr)) :
    (ty = "get" ∨ ty = "set")
    ∧ (∀ n, ep = some n → n ∈ names)
    ∧ (∀ a, attr = some a → a ≠ "" ∧ '\n' ∉ a.data)
    ∧ ∃ rest, rem = epPartOf ep ++ ('/' :: ty.data) ++ attrPartOf attr ++ rest := by
  unfold matchTail at h
  cases hfs : names.findSome? (fun n =>
      if ('/' :: n.data).isPrefixOf rem then
        (matchAction (rem.drop (n.data.length + 1))).map
          (fun p => (some n, p.1, p.2))
      else none) with
  | some val =>
    rw [hfs] at h
    have hval : val = (ep, ty, attr) := by
      simpa [Option.orElse] using h
    subst hval
    obtain ⟨n, hn, hfn⟩ := List.exists_of_findSome?_eq_some hfs
    split at hfn
    · rename_i hpre
      cases hma : matchAction (rem.drop (n.data.length + 1)) with
      | none => rw [hma] at hfn; cases hfn
      | some p =>
        rw [hma] at hfn
        injection hfn with hfn
        rw [Prod.mk.injEq] at hfn
        obtain ⟨hep, hrest2⟩ := hfn
        rw [Prod.mk.injEq] at hrest2
        obtain ⟨hty, hattr⟩ := hrest2
        subst hep
        subst hty
        subst hattr
        obtain ⟨tail, htail⟩ : ∃ t, ('/' :: n.data) ++ t = rem := by
          have := (List.isPrefixOf_iff_prefix).1 hpre
          exact this
        have hdrop : rem.drop (n.data.length + 1) = tail := by
          rw [← htail]
          exact List.drop_left' (by simp)
        rw [hdrop] at hma
        obtain ⟨hor, hatt, rest, hrest⟩ := matchAction_sound tail p.1 p.2 hma
        refine ⟨hor, ?_, hatt, ⟨rest, ?_⟩⟩
        · intro n' hn'
          injection hn' with hn'
          subst hn'
          exact hn
        · rw [← htail, hrest]
          simp [epPartOf, List.append_assoc]
    · cases hfn
  | none =>
    rw [hfs] at h
    have h' : (matchAction rem).map (fun p => ((none : Option String), p.1, p.2))
        = some (ep, ty, attr) := by
      simpa [Option.orElse] using h
    cases hma : matchAction rem with
    | none => rw [hma] at h'; cases h'
    | some p =>
      rw [hma] at h'
      injection h' with h'
      rw [Prod.mk.injEq] at h'
      obtain ⟨hep, hrest2⟩ := h'
      rw [Prod.mk.injEq] at hrest2
      obtain ⟨hty, hattr⟩ := hrest2
      subst hep
      subst hty
      subst hattr
      obtain ⟨hor, hatt, rest, hrest⟩ := matchAction_sound rem p.1 p.2 (by rw [hma])
      refine ⟨hor, ?_, hatt, ⟨rest, ?_⟩⟩
      · intro n hn
        cases hn
      · rw [hrest]
        rfl

theorem scanTopic_sound (names : List String) (rem : List Char) :
    ∀ (accRev : List Char) (m : RegexMatch),
    scanTopic names accRev rem = some m →
    (m.ty = "get" ∨ m.ty = "set")
    ∧ (∀ n, m.endpointName = some n → n ∈ names)
    ∧ (∀ a, m.attr = some a → a ≠ "" ∧ '\n' ∉ a.data)
    ∧ ∃ mid rest, m.g1.data = accRev.reverse ++ mid
        ∧ '\n' ∉ mid
        ∧ rem = mid ++ epPartOf m.endpointName ++ ('/' :: m.ty.data)
            ++ attrPartOf m.attr ++ rest := by
  induction rem with
  | nil =>
    intro accRev m h
    rw [scanTopic] at h
    cases hmt : matchTail names [] with
    | some val =>
      obtain ⟨ep, ty, attr⟩ := val
      rw [hmt] at h
      dsimp only at h
      injection h with h
      subst h
      obtain ⟨hor, hnames, hatt, rest, hrest⟩ :=
        matchTail_sound names [] ep ty attr hmt
      refine ⟨hor, hnames, hatt, ⟨[], rest, by simp, by simp, by simpa using hrest⟩⟩
    | none =>
      rw [hmt] at h
      dsimp only at h
      cases h
  | cons c rest ih =>
    intro accRev m h
    rw [scanTopic] at h
    cases hmt : matchTail names (c :: rest) with
    | some val =>
      obtain ⟨ep, ty, attr⟩ := val
      rw [hmt] at h
      dsimp only at h
      injection h with h
      subst h
      obtain ⟨hor, hnames, hatt, rest', hrest⟩ :=
        matchTail_sound names (c :: rest) ep ty attr hmt
      refine ⟨hor, hnames, hatt, ⟨[], rest', by simp, by simp, by simpa using hrest⟩⟩
    | none =>
      rw [hmt] at h
      dsimp only at h
      split at h
      · cases h
      · rename_i hc
        obtain ⟨hor, hnames, hatt, mid, rest', hg1, hmidnl, hrem⟩ :=
          ih (c :: accRev) m h
        refine ⟨hor, hnames, hatt, ⟨c :: mid, rest', ?_, ?_, ?_⟩⟩
        · rw [hg1]
          simp
        · intro hmem
          rcases List.mem_cons.1 hmem with h1 | h2
          · exact hc h1.symm
          · exact hmidnl h2
        · rw [hrem]
          rfl

theorem regexMatchTopic_sound (names : List String) (t : String) (m : RegexMatch)
    (h : regexMatchTopic names t = some m) : IsGrammarMatch names t m := by
  unfold regexMatchTopic at h
  cases ht : t.data with
  | nil =>
    rw [ht] at h
    cases h
  | cons c rest =>
    rw [ht] at h
    dsimp only at h
    split at h
    · cases h
    · rename_i hc
      obtain ⟨hor, hnames, hatt, mid, rest', hg1, hmidnl, hrem⟩ :=
        scanTopic_sound names rest [c] m h
      have hg1' : m.g1.data = c :: mid := by
        rw [hg1]
        rfl
      refine ⟨hor, ?_, ?_, hnames, hatt, ⟨rest', ?_⟩⟩
      · intro hg
        have hd : m.g1.data = [] := congrArg String.data hg
        rw [hg1'] at hd
        cases hd
      · rw [hg1']
        intro hmem
        rcases List.mem_cons.1 hmem with h1 | h2
        · exact hc h1.symm
        · exact hmidnl h2
      · rw [ht, hg1', hrem]
        rfl

theorem hasSubstr_append_left (pat l₁ l₂ : List Char)
    (h : hasSubstr pat l₁ = true) : hasSubstr pat (l₁ ++ l₂) = true := by
  induction l₁ with
  | nil =>
    have hp : pat = [] := by
      have := (List.isPrefixOf_iff_prefix).1 h
      simpa using this
    subst hp
    cases l₂ with
    | nil => rfl
    | cons c cs =>
      show (List.isPrefixOf [] (c :: cs) || hasSubstr [] cs) = true
      rw [List.isPrefixOf]
      rfl
  | cons c cs ih =>
    rcases Bool.or_eq_true_iff.1 h with h1 | h2
    · show (List.isPrefixOf pat (c :: cs ++ l₂) || _) = true
      have hp : pat.isPrefixOf ((c :: cs) ++ l₂) = true := by
        rw [List.isPrefixOf_iff_prefix] at h1 ⊢
        exact h1.trans ((c :: cs).prefix_append l₂)
      rw [hp]
      rfl
    · show (_ || hasSubstr pat (cs ++ l₂)) = true
      rw [ih h2]
      exact Bool.or_true _

theorem removeFirst_eq_none (pat l : List Char) (h : hasSubstr pat l = false) :
    removeFirst pat l = none := by
  induction l with
  | nil =>
    have hp : pat.isPrefixOf ([] : List Char) = false := h
    simp [removeFirst, hp]
  | cons c cs ih =>
    rcases Bool.or_eq_false_iff.1 h with ⟨h1, h2⟩
    simp [removeFirst, h1, ih h2]

/-- `C9`: the topic parser returns `none` when the topic does not match the
addressing grammar (the regex matcher only succeeds on grammar
decompositions), when the configured base prefix does not occur in the
topic (the replace leaves the first group unchanged), or when the stripped
identifier contains the reserved `bridge` namespace; on a matching topic
whose identifier survives both checks it returns the descriptor carrying
the stripped identifier, the optional endpoint name (defaulted to the
empty string), the get/set action and the optional trailing attribute. -/
theorem c9_topic_parse (S : GlobalSettings) (names : List String) (t : String) :
    (regexMatchTopic names t = none → parseTopic S names t = none)
    ∧ (∀ m, regexMatchTopic names t = some m →
        IsGrammarMatch names t m
        ∧ (jsReplaceFirst m.g1 (S.base_topic ++ "/") = m.g1 →
            parseTopic S names t = none)
        ∧ (hasSubstr "bridge".data
              (jsReplaceFirst m.g1 (S.base_topic ++ "/")).data = true →
            parseTopic S names t = none)
        ∧ (jsReplaceFirst m.g1 (S.base_topic ++ "/") ≠ m.g1 →
            hasSubstr "bridge".data
              (jsReplaceFirst m.g1 (S.base_topic ++ "/")).data = false →
            parseTopic S names t =
              some ⟨jsReplaceFirst m.g1 (S.base_topic ++ "/"),
                m.endpointName.getD "", m.ty, m.attr⟩))
    ∧ (hasSubstr (S.base_topic ++ "/").data t.data = false →
        parseTopic S names t = none) := by
  refine ⟨?_, ?_, ?_⟩
  · intro h
    unfold parseTopic
    rw [h]
  · intro m hm
    have hgm := regexMatchTopic_sound names t m hm
    refine ⟨hgm, ?_, ?_, ?_⟩
    · intro heq
      unfold parseTopic
      rw [hm]
      dsimp only
      rw [if_pos (Or.inl heq)]
    · intro hbr
      unfold parseTopic
      rw [hm]
      dsimp only
      rw [if_pos (Or.inr hbr)]
    · intro hne hfb
      unfold parseTopic
      rw [hm]
      dsimp only
      rw [if_neg]
      intro hcon
      rcases hcon with h1 | h2
      · exact hne h1
      · rw [hfb] at h2
        cases h2
  · intro hsub
    cases hm : regexMatchTopic names t with
    | none =>
      unfold parseTopic
      rw [hm]
    | some m =>
      obtain ⟨-, -, -, -, -, rest, hrest⟩ := regexMatchTopic_sound names t m hm
      have hg1 : hasSubstr (S.base_topic ++ "/").data m.g1.data = false := by
        cases hb : hasSubstr (S.base_topic ++ "/").data m.g1.data with
        | false => rfl
        | true =>
          have hT := hasSubstr_append_left (S.base_topic ++ "/").data m.g1.data
            (epPartOf m.endpointName ++ ('/' :: m.ty.data)
              ++ attrPartOf m.attr ++ rest) hb
          simp only [List.append_assoc] at hT
          have hT' : hasSubstr (S.base_topic ++ "/").data t.data = true := by
            rw [hrest]
            simp only [List.append_assoc]
            exact hT
          rw [hsub] at hT'
          cases hT'
      have hid : jsReplaceFirst m.g1 (S.base_topic ++ "/") = m.g1 := by
        unfold jsReplaceFirst
        rw [removeFirst_eq_none _ _ hg1]
      unfold parseTopic
      rw [hm]
      dsimp only
      rw [if_pos (Or.inl hid)]

theorem c9_topic_parse_witness :
    parseTopic ⟨"base", false, false⟩ ["left"] "base/lamp1/left/set/state"
      = some ⟨"lamp1", "left", "set", some "state"⟩ :=
  ((c9_topic_parse ⟨"base", false, false⟩ ["left"]
      "base/lamp1/left/set/state").2.1
      ⟨"base/lamp1", some "left", "set", some "state"⟩ rfl).2.2.2
    (by decide) (by decide)

end Z2M
